import Mathlib

/-
Verification of the RL_rubiks repository: a shallow embedding, in Lean 4, of
the training orchestrator (src/adi.py) and the Monte Carlo Tree Search engine
(src/mcts.py), together with theorems settling the frozen claims about them.

Conventions of the embedding:
* Python floats are modelled as rationals (ℚ); the claims under study are about
  exact control flow and arithmetic structure, not rounding.
* numpy / Python library calls are modelled by their documented semantics:
  Python max(iterable, key=...) and np.argmax return the FIRST element
  attaining the maximal key; np.max returns that maximal key.
* Randomness (random.choice, np.random.permutation) is modelled by oracle
  parameters: an arbitrary choice function constrained to pick a member of the
  candidate list it is offered, and an arbitrary permutation list.
* Raised Python exceptions (ValueError from max([]) on an empty sequence) are
  modelled by Option/Except none/error results.
-/

set_option maxRecDepth 4096

/-! ## First-maximum selection

`listArgmaxVal key l` returns `some (j, v)` where `j` is the first index of
`l` attaining the maximal key value `v`, and `none` for the empty list.  This
models both Python's `max(iterable, key=...)` (which scans left to right and
keeps the first element whose key is strictly greater than the best so far,
hence returns the first maximal element) and numpy's `np.argmax` / `np.max`
(documented to return the first occurrence of the maximum). -/
def listArgmaxVal {β : Type} (key : β → ℚ) : List β → Option (ℕ × ℚ)
  | [] => none
  | x :: xs =>
      match listArgmaxVal key xs with
      | none => some (0, key x)
      | some jv => if key x < jv.2 then some (jv.1 + 1, jv.2) else some (0, key x)

theorem listArgmaxVal_eq_none {β : Type} (key : β → ℚ) (l : List β) :
    listArgmaxVal key l = none ↔ l = [] := by
  constructor
  · intro h
    cases l with
    | nil => rfl
    | cons x xs =>
        exfalso
        simp only [listArgmaxVal] at h
        cases hrec : listArgmaxVal key xs with
        | none => rw [hrec] at h; simp at h
        | some jv => rw [hrec] at h; by_cases hc : key x < jv.2 <;> simp [hc] at h
  · intro h; subst h; rfl

theorem listArgmaxVal_isSome {β : Type} (key : β → ℚ) (l : List β) (h : l ≠ []) :
    (listArgmaxVal key l).isSome := by
  cases hrec : listArgmaxVal key l with
  | none => exact absurd ((listArgmaxVal_eq_none key l).mp hrec) h
  | some jv => rfl

/-- Full specification of `listArgmaxVal`: the returned index is in range, its
key is the returned value, every key is bounded by it, and every earlier key is
strictly below it (first-occurrence tie-break). -/
theorem listArgmaxVal_spec {β : Type} (key : β → ℚ) (l : List β) (j : ℕ) (v : ℚ)
    (h : listArgmaxVal key l = some (j, v)) :
    ∃ hj : j < l.length,
      key (l.get ⟨j, hj⟩) = v ∧
      (∀ m (hm : m < l.length), key (l.get ⟨m, hm⟩) ≤ v) ∧
      (∀ m (hm : m < j), key (l.get ⟨m, hm.trans hj⟩) < v) := by
  induction l generalizing j v with
  | nil => simp [listArgmaxVal] at h
  | cons x xs ih =>
      cases hrec : listArgmaxVal key xs with
      | none =>
          have hxs : xs = [] := (listArgmaxVal_eq_none key xs).mp hrec
          subst hxs
          simp only [listArgmaxVal, Option.some.injEq, Prod.mk.injEq] at h
          obtain ⟨hj0, hv⟩ := h
          subst hv
          subst hj0
          refine ⟨by simp, rfl, ?_, ?_⟩
          · intro m hm
            have hm0 : m = 0 := by simpa using hm
            subst hm0; exact le_refl _
          · intro m hm; omega
      | some jv =>
          obtain ⟨j0, v0⟩ := jv
          have hstep : listArgmaxVal key (x :: xs) =
              if key x < v0 then some (j0 + 1, v0) else some (0, key x) := by
            simp only [listArgmaxVal, hrec]
          rw [hstep] at h
          obtain ⟨hj0, hkey0, hle0, hlt0⟩ := ih j0 v0 hrec
          by_cases hcmp : key x < v0
          · rw [if_pos hcmp] at h
            simp only [Option.some.injEq, Prod.mk.injEq] at h
            obtain ⟨hj1, hv1⟩ := h
            subst hj1; subst hv1
            refine ⟨by simpa using Nat.succ_lt_succ hj0, hkey0, ?_, ?_⟩
            · intro m hm
              cases m with
              | zero => exact le_of_lt hcmp
              | succ m' => exact hle0 m' (by simpa using hm)
            · intro m hm
              cases m with
              | zero => exact hcmp
              | succ m' => exact hlt0 m' (by omega)
          · rw [if_neg hcmp] at h
            push_neg at hcmp
            simp only [Option.some.injEq, Prod.mk.injEq] at h
            obtain ⟨hj1, hv1⟩ := h
            subst hj1; subst hv1
            refine ⟨by simp, rfl, ?_, ?_⟩
            · intro m hm
              cases m with
              | zero => exact le_refl _
              | succ m' => exact le_trans (hle0 m' (by simpa using hm)) hcmp
            · intro m hm; omega

/-! ## ADI training targets (src/adi.py, ADI.train, lines 223-240)

For each sampled state `X_i` the loop computes, for every legal move, the
immediate reward and the network value of the resulting child state, then

    Y_v = np.max(rewards + values, axis=1)
    Y_p = np.eye(len(rubiks_cube.actions))[np.argmax(rewards + values, axis=1)]

For a single sample this is the per-row computation below, over the
element-wise sums `rewards[i] + values[i]`. -/

/-- Models `np.max` over a 1-d array (first-occurrence maximum value);
`none` models the numpy error on an empty array. -/
def npMax (l : List ℚ) : Option ℚ := (listArgmaxVal id l).map (fun jv => jv.2)

/-- Models `np.argmax` over a 1-d array (index of the first occurrence of the
maximum value). -/
def npArgmax (l : List ℚ) : Option ℕ := (listArgmaxVal id l).map (fun jv => jv.1)

/-- Models the row `np.eye(n)[i]`: a one-hot vector of length `n` with a 1 at
index `i`. -/
def oneHot (n i : ℕ) : List ℚ := (List.range n).map (fun m => if m = i then 1 else 0)

/-- The value regression target of one training sample:
`np.max(rewards + values)` over the per-move sums. -/
def Y_v (rewards values : List ℚ) : Option ℚ := npMax (List.zipWith (· + ·) rewards values)

/-- The policy classification target of one training sample:
`np.eye(numActions)[np.argmax(rewards + values)]`.  For the 3-cube,
`numActions = len(rubiks_cube.actions) = 12`. -/
def Y_p (numActions : ℕ) (rewards values : List ℚ) : Option (List ℚ) :=
  (npArgmax (List.zipWith (· + ·) rewards values)).map (oneHot numActions)

theorem oneHot_length (n i : ℕ) : (oneHot n i).length = n := by simp [oneHot]

theorem oneHot_get (n i m : ℕ) (hm : m < (oneHot n i).length) :
    (oneHot n i).get ⟨m, hm⟩ = if m = i then 1 else 0 := by
  simp [oneHot]

theorem getD_zipWith_add (rewards values : List ℚ) (m : ℕ)
    (hr : m < rewards.length) (hv : m < values.length) :
    (List.zipWith (· + ·) rewards values).getD m 0 =
      rewards.getD m 0 + values.getD m 0 := by
  have hm : m < (List.zipWith (· + ·) rewards values).length := by
    rw [List.length_zipWith]; omega
  rw [List.getD_eq_get _ _ hm, List.getD_eq_get _ _ hr, List.getD_eq_get _ _ hv]
  simp [List.get_eq_getElem, List.getElem_zipWith]

/-- Claim C1: in the training loop's target computation, for every sampled
state the value regression target equals the maximum over all 12 legal moves
of (immediate reward + current network's predicted child value), and the
policy target is the one-hot vector over the 12 moves marking the
argmax-achieving move, ties resolving to the first maximal index. -/
theorem C1_adi_training_targets (rewards values : List ℚ)
    (hr : rewards.length = 12) (hv : values.length = 12) :
    ∃ j, j < 12 ∧
      Y_v rewards values = some (rewards.getD j 0 + values.getD j 0) ∧
      (∀ m, m < 12 → rewards.getD m 0 + values.getD m 0 ≤
        rewards.getD j 0 + values.getD j 0) ∧
      (∀ m, m < j → rewards.getD m 0 + values.getD m 0 <
        rewards.getD j 0 + values.getD j 0) ∧
      Y_p 12 rewards values = some (oneHot 12 j) ∧
      (oneHot 12 j).getD j 0 = 1 ∧
      (∀ m, m < 12 → m ≠ j → (oneHot 12 j).getD m 0 = 0) := by
  set s := List.zipWith (· + ·) rewards values with hs
  have hslen : s.length = 12 := by simp [hs, List.length_zipWith, hr, hv]
  cases harg : listArgmaxVal id s with
  | none =>
      have : s = [] := (listArgmaxVal_eq_none id s).mp harg
      rw [this] at hslen; simp at hslen
  | some jv =>
      obtain ⟨j, v⟩ := jv
      obtain ⟨hj, hkey, hle, hlt⟩ := listArgmaxVal_spec id s j v harg
      have hj12 : j < 12 := hslen ▸ hj
      have hgetD : ∀ m, m < 12 → s.getD m 0 = rewards.getD m 0 + values.getD m 0 := by
        intro m hm
        exact getD_zipWith_add rewards values m (by omega) (by omega)
      have hv' : v = rewards.getD j 0 + values.getD j 0 := by
        rw [← hgetD j hj12, List.getD_eq_get _ _ hj]; exact hkey.symm
      refine ⟨j, hj12, ?_, ?_, ?_, ?_, ?_, ?_⟩
      · rw [Y_v, npMax, harg]
        simpa using hv'
      · intro m hm
        have hm' : m < s.length := by omega
        rw [← hgetD m hm, ← hgetD j hj12, List.getD_eq_get s 0 hm',
          List.getD_eq_get s 0 hj]
        exact le_of_le_of_eq (hle m hm') hkey.symm
      · intro m hm
        have hm' : m < s.length := by omega
        rw [← hgetD m (by omega), ← hgetD j hj12, List.getD_eq_get s 0 hm',
          List.getD_eq_get s 0 hj]
        exact lt_of_lt_of_eq (hlt m hm) hkey.symm
      · rw [Y_p, npArgmax, harg]
        simp
      · rw [List.getD_eq_get _ _ (by rw [oneHot_length]; omega), oneHot_get]
        simp
      · intro m hm hne
        rw [List.getD_eq_get _ _ (by rw [oneHot_length]; omega), oneHot_get]
        simp [hne]

def c1Rewards : List ℚ := [-1, -1, 2, -1, 2, -1, -1, -1, -1, -1, -1, -1]

def c1Values : List ℚ := [0, 1, 1, 0, 1, 0, 0, 0, 0, 0, 0, 0]

/-- Witness for C1 at a concrete input: 12 moves with a tie between moves 2
and 4; the argmax resolves to the first maximal index 2. -/
theorem C1_adi_training_targets_witness :
    c1Rewards.length = 12 ∧ c1Values.length = 12 ∧
    (∃ j, j < 12 ∧
      Y_v c1Rewards c1Values = some (c1Rewards.getD j 0 + c1Values.getD j 0) ∧
      (∀ m, m < 12 → c1Rewards.getD m 0 + c1Values.getD m 0 ≤
        c1Rewards.getD j 0 + c1Values.getD j 0) ∧
      (∀ m, m < j → c1Rewards.getD m 0 + c1Values.getD m 0 <
        c1Rewards.getD j 0 + c1Values.getD j 0) ∧
      Y_p 12 c1Rewards c1Values = some (oneHot 12 j) ∧
      (oneHot 12 j).getD j 0 = 1 ∧
      (∀ m, m < 12 → m ≠ j → (oneHot 12 j).getD m 0 = 0)) :=
  ⟨rfl, rfl, C1_adi_training_targets c1Rewards c1Values rfl rfl⟩

/-! ## Dataset loading (src/adi.py, ADI._load_dataset, lines 80-96)

The method asserts `len(load_files) == 2` (with string entries; here the
entries are typed as strings, so only the count is checkable), extracts the
maximal decimal-digit runs of the first filename with `re.findall(r'\d+', ...)`,
asserts that exactly four were found, discards the first and returns the
remaining three as `(dim, k, l)`.  The `np.load` array reads are external file
input and are not part of the parsing contract under verification.  Failed
assertions are modelled as `Except.error` with the assertion message. -/

/-- Scanner for maximal digit runs: `acc` holds the digits of the run
currently being read, in reverse order; a run is emitted when it ends. -/
def digitRunsAux : List Char → List Char → List (List Char)
  | [], acc => if acc = [] then [] else [acc.reverse]
  | c :: cs, acc =>
      if c.isDigit then digitRunsAux cs (c :: acc)
      else if acc = [] then digitRunsAux cs [] else acc.reverse :: digitRunsAux cs []

/-- The maximal runs of decimal digits in a character list, in order: the
semantics of `re.findall(r'\d+', s)` on the character level. -/
def digitRuns (l : List Char) : List (List Char) := digitRunsAux l []

/-- `int(run)` on a run of decimal digits. -/
def digitsToNat (run : List Char) : ℕ :=
  run.foldl (fun a c => 10 * a + (c.toNat - 48)) 0

/-- `re.findall(r'\d+', s)` followed by `int(...)` on each match. -/
def reFindAllInts (s : String) : List ℕ := (digitRuns s.data).map digitsToNat

/-- The parsing part of `ADI._load_dataset`: checks the shape of `load_files`,
extracts the integers embedded in the first filename, asserts there are
exactly four, and returns the last three as `(dim, k, l)`. -/
def loadDatasetParse (loadFiles : List String) : Except String (ℕ × ℕ × ℕ) :=
  match loadFiles with
  | [f0, _] =>
      match reFindAllInts f0 with
      | [_, dim, k, l] => Except.ok (dim, k, l)
      | _ => Except.error ("Dataset file name incorrect")
  | _ => Except.error ("Bad format for load_files parameter")

/-- Claim C6: dataset loading fails with the documented assertion-style error
whenever `load_files` is not exactly two (string) entries, or the first
filename does not embed exactly four decimal integers; otherwise it discards
the first embedded integer and returns the remaining three, in order, as
`(dim, k, l)`. -/
theorem C6_load_dataset_parsing (loadFiles : List String) :
    (loadFiles.length ≠ 2 →
      loadDatasetParse loadFiles = Except.error ("Bad format for load_files parameter")) ∧
    (∀ f0 f1, loadFiles = [f0, f1] →
      ((reFindAllInts f0).length ≠ 4 →
        loadDatasetParse loadFiles = Except.error ("Dataset file name incorrect")) ∧
      (∀ a b c d, reFindAllInts f0 = [a, b, c, d] →
        loadDatasetParse loadFiles = Except.ok (b, c, d))) := by
  constructor
  · intro hlen
    match loadFiles with
    | [] => rfl
    | [_] => rfl
    | [_, _] => simp at hlen
    | _ :: _ :: _ :: _ => rfl
  · intro f0 f1 heq
    subst heq
    constructor
    · intro hruns
      rw [loadDatasetParse]
      match hr : reFindAllInts f0 with
      | [] => rfl
      | [_] => rfl
      | [_, _] => rfl
      | [_, _, _] => rfl
      | [_, _, _, _] => rw [hr] at hruns; simp at hruns
      | _ :: _ :: _ :: _ :: _ :: _ => rfl
    · intro a b c d hr
      rw [loadDatasetParse, hr]

/-- Witness for C6: the repository's own dataset naming convention.  The name
`scrambled_cubes_3x3_k25_l40000.npy` embeds the integers 3, 3, 25, 40000; the
first is discarded and loading yields `dim = 3, k = 25, l = 40000`.  A name
with only three embedded integers fails with the documented message, and a
singleton file list fails with the format message. -/
theorem C6_load_dataset_parsing_witness :
    reFindAllInts ("scrambled_cubes_3x3_k25_l40000.npy") = [3, 3, 25, 40000] ∧
    loadDatasetParse
        [("scrambled_cubes_3x3_k25_l40000.npy"), ("weights_3x3_k25_l40000.npy")] =
      Except.ok (3, 25, 40000) ∧
    loadDatasetParse [("scrambled_cubes_3x3_k25.npy"), ("weights.npy")] =
      Except.error ("Dataset file name incorrect") ∧
    loadDatasetParse [("only_one_file.npy")] =
      Except.error ("Bad format for load_files parameter") := by
  refine ⟨by decide, ?_, ?_, ?_⟩
  · exact (C6_load_dataset_parsing _).2 _ _ rfl |>.2 3 3 25 40000 (by decide)
  · exact (C6_load_dataset_parsing _).2 _ _ rfl |>.1 (by decide)
  · exact (C6_load_dataset_parsing _).1 (by decide)

/-! ## Checkpoint loading (src/adi.py, ADI.load_trained_model, lines 171-188)

The method reads the architecture from `'data/' + filename + '.json'`, the
weights from `'data/' + filename + '.h5'`, recompiles with the fixed loss
dictionary (mean squared error on the value head, categorical cross-entropy on
the policy head) and the string optimizer `'rmsprop'` (Keras's default RMSProp
configuration, taking no input from `self.initial_lr`), replaces `self.model`,
and sets `self.current_iteration` to the caller-supplied value.  The file
contents themselves are external input; the embedding records the paths read
and the compilation configuration assigned, which is exactly what the claim
is about. -/

/-- The compilation configuration of the in-memory model: where its
architecture and weights were read from and how it was compiled. -/
structure ADIModelConfig where
  archSource : String
  weightsSource : String
  optimizer : String
  valueLoss : String
  policyLoss : String
deriving DecidableEq

/-- The orchestrator state touched by `load_trained_model`. -/
structure ADIState where
  initialLr : ℚ
  model : ADIModelConfig
  currentIteration : ℤ
deriving DecidableEq

/-- `ADI.load_trained_model(filename, current_iteration)` as a state
transformer.  The loaded model is recompiled with the fixed losses and the
fixed `'rmsprop'` optimizer string; `current_iteration` is overwritten with
the argument. -/
def load_trained_model (filename : String) (currentIteration : ℤ) (s : ADIState) : ADIState :=
  { s with
    model :=
      { archSource := "data/" ++ filename ++ ".json"
        weightsSource := "data/" ++ filename ++ ".h5"
        optimizer := "rmsprop"
        valueLoss := "mean_squared_error"
        policyLoss := "categorical_crossentropy" }
    currentIteration := currentIteration }

/-- Claim C9: `load_trained_model(filename, current_iteration)` reads the
architecture from `data/<filename>.json` and the weights from
`data/<filename>.h5` (the `data/` prefix is fixed), recompiles with
mean-squared-error on the value head and categorical cross-entropy on the
policy head under a fixed RMSProp optimizer that is independent of the
configured initial learning rate, and sets `current_iteration` to exactly the
caller-supplied value. -/
theorem C9_load_trained_model (filename : String) (it : ℤ) (s : ADIState) :
    (load_trained_model filename it s).model.archSource = "data/" ++ filename ++ ".json" ∧
    (load_trained_model filename it s).model.weightsSource = "data/" ++ filename ++ ".h5" ∧
    (load_trained_model filename it s).model.valueLoss = "mean_squared_error" ∧
    (load_trained_model filename it s).model.policyLoss = "categorical_crossentropy" ∧
    (load_trained_model filename it s).model.optimizer = "rmsprop" ∧
    (∀ s' : ADIState, (load_trained_model filename it s').model =
      (load_trained_model filename it s).model) ∧
    (load_trained_model filename it s).currentIteration = it :=
  ⟨rfl, rfl, rfl, rfl, rfl, fun _ => rfl, rfl⟩

/-! ## Dataset generation (src/adi.py, ADI._generate_dataset, lines 98-135)

The generator runs `l` sequences; each starts from a freshly constructed
solved cube and applies `k` random moves.  At each step the move index is
drawn by `random.choice` from all action indices except the index of the
exact inverse of the previous move (`None`, hence no exclusion, on the first
step); after stepping, the one-hot state and the weight `1/(step+1)` are
recorded.  Finally, when shuffling is enabled, one shared permutation of
`range(l*k)` reindexes both arrays.

The cube environment (`RubiksCube` / `RubiksAction`) is not part of this
snapshot and is treated as the external boundary the orchestrator requires:
an initial state, an action count, a transition function, an inverse-index
lookup (`index_actions[str(action.get_inverse_action())]` composes to a pure
map from an action index to its inverse's index), and a one-hot encoding.
`random.choice` becomes an oracle `ch step candidates` constrained to return
a member of the offered candidate list; `np.random.permutation(range(l*k))`
becomes an arbitrary list `perm` that is a permutation of `range (l*k)`.
Logging and the `np.save` calls are I/O side effects with no bearing on the
returned arrays and are omitted. -/

structure CubeEnv (σ ω : Type) where
  init : σ
  numActions : ℕ
  stepFn : σ → ℕ → σ
  invIdx : ℕ → ℕ
  stateOneHot : σ → ω

/-- The list `[idx for idx in range(len(actions)) if idx != inverse_previous_action_idx]`;
a `none` previous inverse (Python `None`) excludes nothing. -/
def candidateList (n : ℕ) (prev : Option ℕ) : List ℕ :=
  (List.range n).filter fun idx =>
    match prev with
    | none => true
    | some m => idx != m

/-- One record appended by the generation loop: the chosen action index, the
one-hot state after the move, and the weight `1/(step+1)`. -/
structure ScrSample (ω : Type) where
  actionIdx : ℕ
  stateOH : ω
  weight : ℚ

/-- One scramble sequence of the generation loop: `steps` remaining moves,
`j` the current 0-based step index, `s` the cube state, `prev` the index of
the inverse of the previous move. -/
def scrambleSeq {σ ω : Type} (env : CubeEnv σ ω) (ch : ℕ → List ℕ → ℕ) :
    ℕ → ℕ → σ → Option ℕ → List (ScrSample ω)
  | 0, _, _, _ => []
  | steps + 1, j, s, prev =>
      let a := ch j (candidateList env.numActions prev)
      let s' := env.stepFn s a
      ⟨a, env.stateOneHot s', 1 / ((j : ℚ) + 1)⟩ ::
        scrambleSeq env ch (steps) (j + 1) s' (some (env.invIdx a))

/-- The projection of the same loop onto the moves it applies.  This is the
shared scrambling procedure of `ADI._generate_dataset` (lines 113-119) and
`ADI.estimate_naive_accuracy` (lines 292-298), which run the identical
choose-step-update recurrence. -/
def scrambleMoves {σ ω : Type} (env : CubeEnv σ ω) (ch : ℕ → List ℕ → ℕ) :
    ℕ → ℕ → σ → Option ℕ → List ℕ
  | 0, _, _, _ => []
  | steps + 1, j, s, prev =>
      let a := ch j (candidateList env.numActions prev)
      a :: scrambleMoves env ch (steps) (j + 1) (env.stepFn s a) (some (env.invIdx a))

/-- All `l` sequences of the generator, concatenated in recording order; the
oracle receives the sequence index as its first argument. -/
def genSamples {σ ω : Type} (env : CubeEnv σ ω) (ch : ℕ → ℕ → List ℕ → ℕ)
    (k l : ℕ) : List (ScrSample ω) :=
  ((List.range l).map (fun i => scrambleSeq env (ch i) k 0 env.init none)).flatten

/-- `ADI._generate_dataset(k, l)`: the pair `(X, weights)`, both optionally
reindexed by the shared permutation `perm` when `shuffle` is set. -/
def generateDataset {σ ω : Type} (env : CubeEnv σ ω) (ch : ℕ → ℕ → List ℕ → ℕ)
    (k l : ℕ) (shuffle : Bool) (perm : List ℕ) : List ω × List ℚ :=
  let samples := genSamples env ch k l
  let X := samples.map (fun x => x.stateOH)
  let W := samples.map (fun x => x.weight)
  if shuffle then (perm.filterMap (fun ix => X.get? ix), perm.filterMap (fun ix => W.get? ix))
  else (X, W)

theorem scrambleSeq_length {σ ω : Type} (env : CubeEnv σ ω) (ch : ℕ → List ℕ → ℕ) :
    ∀ steps j s prev, (scrambleSeq env ch steps j s prev).length = steps := by
  intro steps
  induction steps with
  | zero => intro j s prev; rfl
  | succ n ih => intro j s prev; simp only [scrambleSeq, List.length_cons, ih]

theorem scrambleSeq_get?_weight {σ ω : Type} (env : CubeEnv σ ω) (ch : ℕ → List ℕ → ℕ) :
    ∀ steps j s prev m, m < steps →
      ((scrambleSeq env ch steps j s prev).get? m).map (fun x => x.weight) =
        some (1 / ((j : ℚ) + (m : ℚ) + 1)) := by
  intro steps
  induction steps with
  | zero => intro j s prev m hm; omega
  | succ n ih =>
      intro j s prev m hm
      cases m with
      | zero => simp [scrambleSeq]
      | succ m' =>
          have := ih (j + 1) (env.stepFn s (ch j (candidateList env.numActions prev)))
            (some (env.invIdx (ch j (candidateList env.numActions prev)))) m' (by omega)
          simp only [scrambleSeq, List.get?_cons_succ, this]
          congr 1
          push_cast
          ring

theorem flatten_length_uniform {β : Type} (k : ℕ) :
    ∀ L : List (List β), (∀ x ∈ L, x.length = k) → L.flatten.length = L.length * k := by
  intro L
  induction L with
  | nil => intro _; simp
  | cons x xs ih =>
      intro h
      rw [List.flatten_cons, List.length_append, List.length_cons,
        h x (by simp), ih (fun y hy => h y (by simp [hy]))]
      ring

theorem flatten_get?_uniform {β : Type} (k : ℕ) :
    ∀ (L : List (List β)) (i j : ℕ), (∀ x ∈ L, x.length = k) → i < L.length → j < k →
      L.flatten.get? (i * k + j) = (L.get? i).bind (fun x => x.get? j) := by
  intro L
  induction L with
  | nil => intro i j _ hi; simp at hi
  | cons x xs ih =>
      intro i j h hi hj
      cases i with
      | zero =>
          have hxlen : x.length = k := h x (by simp)
          rw [List.flatten_cons, Nat.zero_mul, Nat.zero_add,
            List.get?_append (by omega), List.get?_cons_zero]
          rfl
      | succ i' =>
          have hxlen : x.length = k := h x (by simp)
          have harith : (i' + 1) * k + j = i' * k + j + x.length := by
            rw [hxlen]; ring
          rw [List.flatten_cons, List.get?_cons_succ, harith,
            List.get?_append_right (by omega),
            ← ih i' j (fun y hy => h y (by simp [hy])) (by simpa using hi) hj]
          congr 1
          omega

theorem genSamples_length {σ ω : Type} (env : CubeEnv σ ω) (ch : ℕ → ℕ → List ℕ → ℕ)
    (k l : ℕ) : (genSamples env ch k l).length = l * k := by
  rw [genSamples, flatten_length_uniform k]
  · simp
  · intro x hx
    simp only [List.mem_map] at hx
    obtain ⟨i, _, hxi⟩ := hx
    rw [← hxi, scrambleSeq_length]

theorem genSamples_get?_weight {σ ω : Type} (env : CubeEnv σ ω) (ch : ℕ → ℕ → List ℕ → ℕ)
    (k l i j : ℕ) (hi : i < l) (hj : j < k) :
    ((genSamples env ch k l).get? (i * k + j)).map (fun x => x.weight) =
      some (1 / ((j : ℚ) + 1)) := by
  rw [genSamples, flatten_get?_uniform k _ i j
    (by intro x hx; simp only [List.mem_map] at hx; obtain ⟨m, _, hxm⟩ := hx
        rw [← hxm, scrambleSeq_length])
    (by simpa using hi) hj]
  rw [List.get?_map, List.get?_eq_getElem?, List.getElem?_range hi]
  have hw := scrambleSeq_get?_weight env (ch i) k 0 env.init none j hj
  have h0 : ((0 : ℕ) : ℚ) + (j : ℚ) + 1 = (j : ℚ) + 1 := by push_cast; ring
  rw [h0] at hw
  exact hw

theorem filterMap_length_of_isSome {β γ : Type} (f : β → Option γ) :
    ∀ p : List β, (∀ x ∈ p, (f x).isSome) → (p.filterMap f).length = p.length := by
  intro p
  induction p with
  | nil => intro _; rfl
  | cons x xs ih =>
      intro h
      have hx : (f x).isSome := h x (by simp)
      cases hfx : f x with
      | none => rw [hfx] at hx; simp at hx
      | some y =>
          rw [List.filterMap_cons, hfx]
          simp only [List.length_cons]
          rw [ih (fun y hy => h y (by simp [hy]))]

theorem scrambleSeq_weight_mem {σ ω : Type} (env : CubeEnv σ ω) (ch : ℕ → List ℕ → ℕ)
    (steps j : ℕ) (s : σ) (prev : Option ℕ) (x : ScrSample ω)
    (hx : x ∈ scrambleSeq env ch steps j s prev) :
    ∃ m, m < steps ∧ x.weight = 1 / ((j : ℚ) + (m : ℚ) + 1) := by
  obtain ⟨n, hn⟩ := List.mem_iff_get?.mp hx
  have hlen := scrambleSeq_length env ch steps j s prev
  have hnlt : n < steps := by
    by_contra hge
    rw [List.get?_eq_none.mpr (by omega)] at hn
    exact Option.noConfusion hn
  refine ⟨n, hnlt, ?_⟩
  have hw := scrambleSeq_get?_weight env ch steps j s prev n hnlt
  rw [hn] at hw
  simpa using hw

theorem genSamples_weight_mem {σ ω : Type} (env : CubeEnv σ ω) (ch : ℕ → ℕ → List ℕ → ℕ)
    (k l : ℕ) (x : ScrSample ω) (hx : x ∈ genSamples env ch k l) :
    ∃ m, m < k ∧ x.weight = 1 / ((m : ℚ) + 1) := by
  rw [genSamples, List.mem_flatten] at hx
  obtain ⟨seq, hseq, hxseq⟩ := hx
  simp only [List.mem_map] at hseq
  obtain ⟨i, _, hseqi⟩ := hseq
  rw [← hseqi] at hxseq
  obtain ⟨m, hm, hweight⟩ := scrambleSeq_weight_mem env (ch i) k 0 env.init none x hxseq
  refine ⟨m, hm, ?_⟩
  rw [hweight]
  norm_num

/-- Claim C4: for every `k ≥ 1` and `l ≥ 1`, dataset generation returns two
parallel arrays `(states, weights)` both of length `l*k`, where the sample
recorded at 0-indexed step `step` within its sequence has weight exactly
`1/(step+1)`; hence every weight lies in `(0, 1]`.  The positional statement
is read off the arrays in recording order (`shuffle = false`); when shuffling
is enabled both arrays are reindexed by one shared permutation of
`range (l*k)`, so the lengths and the weight range are preserved. -/
theorem C4_generate_dataset {σ ω : Type} (env : CubeEnv σ ω) (ch : ℕ → ℕ → List ℕ → ℕ)
    (k l : ℕ) (shuffle : Bool) (perm : List ℕ)
    (hperm : shuffle = true → perm.Perm (List.range (l * k))) :
    (generateDataset env ch k l shuffle perm).1.length = l * k ∧
    (generateDataset env ch k l shuffle perm).2.length = l * k ∧
    (∀ i j, i < l → j < k →
      (generateDataset env ch k l false perm).2.get? (i * k + j) =
        some (1 / ((j : ℚ) + 1))) ∧
    (∀ w, w ∈ (generateDataset env ch k l shuffle perm).2 →
      (∃ j, j < k ∧ w = 1 / ((j : ℚ) + 1)) ∧ 0 < w ∧ w ≤ 1) := by
  have hXlen : ((genSamples env ch k l).map (fun x => x.stateOH)).length = l * k := by
    rw [List.length_map, genSamples_length]
  have hWlen : ((genSamples env ch k l).map (fun x => x.weight)).length = l * k := by
    rw [List.length_map, genSamples_length]
  have hmemW : ∀ w, w ∈ (genSamples env ch k l).map (fun x => x.weight) →
      (∃ j, j < k ∧ w = 1 / ((j : ℚ) + 1)) ∧ 0 < w ∧ w ≤ 1 := by
    intro w hw
    simp only [List.mem_map] at hw
    obtain ⟨x, hx, hxw⟩ := hw
    obtain ⟨m, hm, hweight⟩ := genSamples_weight_mem env ch k l x hx
    have hwval : w = 1 / ((m : ℚ) + 1) := by rw [← hxw, hweight]
    have hmpos : (0 : ℚ) < (m : ℚ) + 1 := by positivity
    refine ⟨⟨m, hm, hwval⟩, ?_, ?_⟩
    · rw [hwval]; positivity
    · rw [hwval, div_le_one hmpos]
      have : (0 : ℚ) ≤ (m : ℚ) := Nat.cast_nonneg m
      linarith
  refine ⟨?_, ?_, ?_, ?_⟩
  · cases shuffle with
    | false => simpa [generateDataset] using hXlen
    | true =>
        have hp := hperm rfl
        have hlenp : perm.length = l * k := by
          rw [hp.length_eq, List.length_range]
        simp only [generateDataset, if_pos]
        rw [filterMap_length_of_isSome]
        · exact hlenp
        · intro ix hix
          have : ix < l * k := by
            have := hp.mem_iff.mp hix
            simpa using this
          rw [List.get?_eq_get (by omega)]
          rfl
  · cases shuffle with
    | false => simpa [generateDataset] using hWlen
    | true =>
        have hp := hperm rfl
        have hlenp : perm.length = l * k := by
          rw [hp.length_eq, List.length_range]
        simp only [generateDataset, if_pos]
        rw [filterMap_length_of_isSome]
        · exact hlenp
        · intro ix hix
          have : ix < l * k := by
            have := hp.mem_iff.mp hix
            simpa using this
          rw [List.get?_eq_get (by omega)]
          rfl
  · intro i j hi hj
    have hred : (generateDataset env ch k l false perm).2 =
        (genSamples env ch k l).map (fun x => x.weight) := by
      simp [generateDataset]
    rw [hred, List.get?_map]
    have := genSamples_get?_weight env ch k l i j hi hj
    rw [← this]
  · intro w hwmem
    apply hmemW
    cases shuffle with
    | false => simpa [generateDataset] using hwmem
    | true =>
        simp only [generateDataset, if_pos] at hwmem
        rw [List.mem_filterMap] at hwmem
        obtain ⟨ix, _, hwix⟩ := hwmem
        exact List.get?_mem hwix

/-- A trivial concrete cube environment used to instantiate witnesses: 12
actions, opaque unit states. -/
def c4Env : CubeEnv Unit Unit :=
  { init := ()
    numActions := 12
    stepFn := fun _ _ => ()
    invIdx := fun a => a
    stateOneHot := fun _ => () }

/-- A concrete choice oracle: always the head of the candidate list. -/
def c4Choice : ℕ → ℕ → List ℕ → ℕ := fun _ _ cs => cs.headD 0

/-- A concrete permutation of `range (2 * 2)`. -/
def c4Perm : List ℕ := [3, 0, 2, 1]

/-- Witness for C4 at `k = 2`, `l = 2` with shuffling enabled. -/
theorem C4_generate_dataset_witness :
    (c4Perm.Perm (List.range (2 * 2))) ∧
    ((generateDataset c4Env c4Choice 2 2 true c4Perm).1.length = 2 * 2 ∧
     (generateDataset c4Env c4Choice 2 2 true c4Perm).2.length = 2 * 2 ∧
     (∀ i j, i < 2 → j < 2 →
       (generateDataset c4Env c4Choice 2 2 false c4Perm).2.get? (i * 2 + j) =
         some (1 / ((j : ℚ) + 1))) ∧
     (∀ w, w ∈ (generateDataset c4Env c4Choice 2 2 true c4Perm).2 →
       (∃ j : ℕ, j < 2 ∧ w = 1 / ((j : ℚ) + 1)) ∧ 0 < w ∧ w ≤ 1)) :=
  ⟨by decide, C4_generate_dataset c4Env c4Choice 2 2 true c4Perm (fun _ => by decide)⟩

theorem mem_candidateList {n : ℕ} {prev : Option ℕ} {x : ℕ}
    (h : x ∈ candidateList n prev) : x < n ∧ prev ≠ some x := by
  rw [candidateList, List.mem_filter, List.mem_range] at h
  obtain ⟨hlt, hpred⟩ := h
  refine ⟨hlt, ?_⟩
  cases prev with
  | none => simp
  | some m =>
      simp only [bne_iff_ne, ne_eq] at hpred
      simp only [ne_eq, Option.some.injEq]
      omega

theorem candidateList_none (n : ℕ) : candidateList n none = List.range n := by
  rw [candidateList, List.filter_eq_self.mpr]
  intro x _
  rfl

theorem candidateList_ne_nil (n : ℕ) (prev : Option ℕ) (hn : 2 ≤ n) :
    candidateList n prev ≠ [] := by
  cases prev with
  | none =>
      rw [candidateList_none]
      have h0 : 0 ∈ List.range n := List.mem_range.mpr (by omega)
      exact List.ne_nil_of_mem h0
  | some m =>
      have hmem : (if m = 0 then 1 else 0) ∈ candidateList n (some m) := by
        rw [candidateList, List.mem_filter, List.mem_range]
        by_cases hm : m = 0 <;> simp [hm] <;> omega
      exact List.ne_nil_of_mem hmem

/-- The shared scramble recurrence: every produced move lies in the candidate
list computed from the inverse of the move before it, and the first move of
the block is drawn from the candidate list of the incoming `prev`. -/
theorem scrambleMoves_spec {σ ω : Type} (env : CubeEnv σ ω) (ch : ℕ → List ℕ → ℕ)
    (hch : ∀ j cs, cs ≠ [] → ch j cs ∈ cs) (hn : 2 ≤ env.numActions) :
    ∀ steps j s prev,
      (scrambleMoves env ch steps j s prev).length = steps ∧
      (0 < steps →
        (scrambleMoves env ch steps j s prev).getD 0 0 ∈
          candidateList env.numActions prev) ∧
      (∀ m, m + 1 < steps →
        (scrambleMoves env ch steps j s prev).getD (m + 1) 0 ∈
          candidateList env.numActions
            (some (env.invIdx ((scrambleMoves env ch steps j s prev).getD m 0)))) := by
  intro steps
  induction steps with
  | zero =>
      intro j s prev
      exact ⟨rfl, by omega, by omega⟩
  | succ n ih =>
      intro j s prev
      obtain ⟨ihlen, ihhead, ihtail⟩ :=
        ih (j + 1) (env.stepFn s (ch j (candidateList env.numActions prev)))
          (some (env.invIdx (ch j (candidateList env.numActions prev))))
      refine ⟨?_, ?_, ?_⟩
      · simp only [scrambleMoves, List.length_cons, ihlen]
      · intro _
        simp only [scrambleMoves, List.getD_cons_zero]
        exact hch j _ (candidateList_ne_nil _ prev hn)
      · intro m hm
        cases m with
        | zero =>
            simp only [scrambleMoves, List.getD_cons_succ, List.getD_cons_zero]
            exact ihhead (by omega)
        | succ m' =>
            simp only [scrambleMoves, List.getD_cons_succ]
            exact ihtail m' (by omega)

theorem scrambleSeq_map_actionIdx {σ ω : Type} (env : CubeEnv σ ω) (ch : ℕ → List ℕ → ℕ) :
    ∀ steps j s prev,
      (scrambleSeq env ch steps j s prev).map (fun x => x.actionIdx) =
        scrambleMoves env ch steps j s prev := by
  intro steps
  induction steps with
  | zero => intro j s prev; rfl
  | succ n ih =>
      intro j s prev
      simp only [scrambleSeq, scrambleMoves, List.map_cons, ih]

/-- Claim C5: in every scramble sequence produced by dataset generation (and
by the same scrambling procedure in the accuracy estimator — the two loops
run the identical recurrence embodied by `scrambleMoves`), no move is ever
the exact inverse of the immediately preceding move; the first step has no
exclusion (its candidate list is all of `range numActions`), and each step
chooses from exactly the remaining legal move indices (uniformity among them
is the contract of `random.choice`, modelled by an arbitrary member-selecting
oracle). -/
theorem C5_scramble_no_inverse {σ ω : Type} (env : CubeEnv σ ω) (ch : ℕ → List ℕ → ℕ)
    (k : ℕ)
    (hch : ∀ j cs, cs ≠ [] → ch j cs ∈ cs) (hn : 2 ≤ env.numActions) :
    (scrambleMoves env ch k 0 env.init none).length = k ∧
    candidateList env.numActions none = List.range env.numActions ∧
    (0 < k → (scrambleMoves env ch k 0 env.init none).getD 0 0 ∈
      List.range env.numActions) ∧
    (∀ m, m + 1 < k →
      (scrambleMoves env ch k 0 env.init none).getD (m + 1) 0 ∈
        candidateList env.numActions
          (some (env.invIdx ((scrambleMoves env ch k 0 env.init none).getD m 0)))) ∧
    (∀ m, m + 1 < k →
      (scrambleMoves env ch k 0 env.init none).getD (m + 1) 0 ≠
        env.invIdx ((scrambleMoves env ch k 0 env.init none).getD m 0)) ∧
    (scrambleSeq env ch k 0 env.init none).map (fun x => x.actionIdx) =
      scrambleMoves env ch k 0 env.init none := by
  obtain ⟨hlen, hhead, htail⟩ := scrambleMoves_spec env ch hch hn k 0 env.init none
  refine ⟨hlen, candidateList_none _, ?_, htail, ?_, scrambleSeq_map_actionIdx env ch k 0 env.init none⟩
  · intro hk
    have := hhead hk
    rwa [candidateList_none] at this
  · intro m hm
    have hmem := htail m hm
    have := (mem_candidateList hmem).2
    intro heq
    exact this (by rw [heq])

/-- A concrete 12-action environment whose inverse map pairs each action
`2*i` with `2*i+1` (clockwise/counterclockwise), as on the real cube. -/
def c5Env : CubeEnv Unit Unit :=
  { init := ()
    numActions := 12
    stepFn := fun _ _ => ()
    invIdx := fun a => if a % 2 = 0 then a + 1 else a - 1
    stateOneHot := fun _ => () }

/-- A concrete member-selecting choice oracle. -/
def c5Choice : ℕ → List ℕ → ℕ := fun _ cs => cs.headD 0

theorem c5Choice_mem : ∀ j cs, cs ≠ ([] : List ℕ) → c5Choice j cs ∈ cs := by
  intro j cs h
  cases cs with
  | nil => exact absurd rfl h
  | cons a tl => exact List.mem_cons_self a tl

/-- Witness for C5 at `k = 4` over the concrete 12-action environment. -/
theorem C5_scramble_no_inverse_witness :
    (∀ j cs, cs ≠ ([] : List ℕ) → c5Choice j cs ∈ cs) ∧ 2 ≤ c5Env.numActions ∧
    ((scrambleMoves c5Env c5Choice 4 0 c5Env.init none).length = 4 ∧
     candidateList c5Env.numActions none = List.range c5Env.numActions ∧
     (0 < 4 → (scrambleMoves c5Env c5Choice 4 0 c5Env.init none).getD 0 0 ∈
       List.range c5Env.numActions) ∧
     (∀ m, m + 1 < 4 →
       (scrambleMoves c5Env c5Choice 4 0 c5Env.init none).getD (m + 1) 0 ∈
         candidateList c5Env.numActions
           (some (c5Env.invIdx ((scrambleMoves c5Env c5Choice 4 0 c5Env.init none).getD m 0)))) ∧
     (∀ m, m + 1 < 4 →
       (scrambleMoves c5Env c5Choice 4 0 c5Env.init none).getD (m + 1) 0 ≠
         c5Env.invIdx ((scrambleMoves c5Env c5Choice 4 0 c5Env.init none).getD m 0)) ∧
     (scrambleSeq c5Env c5Choice 4 0 c5Env.init none).map (fun x => x.actionIdx) =
       scrambleMoves c5Env c5Choice 4 0 c5Env.init none) :=
  ⟨c5Choice_mem, by decide,
    C5_scramble_no_inverse c5Env c5Choice 4 c5Choice_mem (by decide)⟩

/-! ## Monte Carlo Tree Search engine (src/mcts.py)

`UCTNode` instances form a tree: each node holds a game state, an expansion
flag (`is_expanded`, initially false), a prior, a cumulative value total
(`total_value`, initially 0), a visit count (`number_visits`, initially 0),
and a children dictionary keyed by move.  `expand` inserts children for moves
`0 .. len(child_priors)-1` in increasing move order, and Python dictionaries
iterate in insertion order, so the children mapping is faithfully a list
indexed by move.  Parent references are represented by addressing nodes with
paths (lists of child indices from the root); the mutation of `select_leaf`,
`expand` and `backup` becomes functional tree surgery along a path.
`math.sqrt` on a visit count is kept abstract as a parameter `sqrtQ`: every
theorem below holds for an arbitrary `sqrtQ`, in particular for the real
square root; concrete witnesses instantiate it with `Nat.sqrt`. -/

inductive UCTTree (α : Type) : Type where
  | mk (game_state : α) (is_expanded : Bool) (prior : ℚ) (total_value : ℚ)
      (number_visits : ℕ) (children : List (UCTTree α)) : UCTTree α

def UCTTree.gameState {α : Type} : UCTTree α → α
  | .mk g _ _ _ _ _ => g

def UCTTree.expandedFlag {α : Type} : UCTTree α → Bool
  | .mk _ b _ _ _ _ => b

def UCTTree.priorOf {α : Type} : UCTTree α → ℚ
  | .mk _ _ p _ _ _ => p

def UCTTree.totalValue {α : Type} : UCTTree α → ℚ
  | .mk _ _ _ tv _ _ => tv

def UCTTree.numberVisits {α : Type} : UCTTree α → ℕ
  | .mk _ _ _ _ nv _ => nv

def UCTTree.childList {α : Type} : UCTTree α → List (UCTTree α)
  | .mk _ _ _ _ _ cs => cs

/-- `UCTNode.Q`: `total_value / (1 + number_visits)`. -/
def UCTTree.Q {α : Type} (t : UCTTree α) : ℚ :=
  t.totalValue / (1 + (t.numberVisits : ℚ))

/-- `UCTNode.U`: `sqrt(parent.number_visits) * prior / (1 + number_visits)`.
The parent's visit count is passed explicitly. -/
def UCTTree.U {α : Type} (sqrtQ : ℕ → ℚ) (parentVisits : ℕ) (t : UCTTree α) : ℚ :=
  sqrtQ parentVisits * t.priorOf / (1 + (t.numberVisits : ℚ))

/-- The node reached from `t` by following a path of child indices. -/
def nodeAt {α : Type} : UCTTree α → List ℕ → Option (UCTTree α)
  | t, [] => some t
  | t, i :: rest =>
      match t.childList.get? i with
      | some c => nodeAt c rest
      | none => none

/-- The scalar data of one node: everything except the child subtrees, plus
the number of children. -/
structure NodeInfo (α : Type) where
  game_state : α
  is_expanded : Bool
  prior : ℚ
  total_value : ℚ
  number_visits : ℕ
  numChildren : ℕ
deriving DecidableEq

def infoOf {α : Type} : UCTTree α → NodeInfo α
  | .mk g b p tv nv cs => ⟨g, b, p, tv, nv, cs.length⟩

def infoAt {α : Type} (t : UCTTree α) (q : List ℕ) : Option (NodeInfo α) :=
  (nodeAt t q).map infoOf

/-- `q` is an initial segment of `p` (the address of an ancestor-or-self of
the node addressed by `p`). -/
def initSeg (q p : List ℕ) : Prop := p.take q.length = q

instance (q p : List ℕ) : Decidable (initSeg q p) :=
  inferInstanceAs (Decidable (p.take q.length = q))

theorem initSeg_nil (p : List ℕ) : initSeg [] p := by simp [initSeg]

theorem initSeg_refl (p : List ℕ) : initSeg p p := by simp [initSeg]

theorem initSeg_length_le {q p : List ℕ} (h : initSeg q p) : q.length ≤ p.length := by
  rw [initSeg] at h
  have := congrArg List.length h
  rw [List.length_take] at this
  omega

theorem initSeg_cons {q : List ℕ} {i : ℕ} {rest : List ℕ}
    (h : initSeg q (i :: rest)) (hne : q ≠ []) :
    ∃ q', q = i :: q' ∧ initSeg q' rest := by
  cases q with
  | nil => exact absurd rfl hne
  | cons a q' =>
      rw [initSeg, List.length_cons, List.take_succ_cons, List.cons.injEq] at h
      exact ⟨q', by rw [h.1], h.2⟩

theorem initSeg_cons_of {q : List ℕ} {i : ℕ} {rest : List ℕ} (h : initSeg q rest) :
    initSeg (i :: q) (i :: rest) := by
  rw [initSeg, List.length_cons, List.take_succ_cons, h]

theorem not_initSeg_cons_nil {i : ℕ} {rest : List ℕ} : ¬ initSeg (i :: rest) [] := by
  intro h
  have := initSeg_length_le h
  simp at this

theorem initSeg_cons_iff {a i : ℕ} {q rest : List ℕ} :
    initSeg (a :: q) (i :: rest) ↔ a = i ∧ initSeg q rest := by
  rw [initSeg, List.length_cons, List.take_succ_cons, List.cons.injEq, initSeg]
  constructor
  · intro ⟨h1, h2⟩; exact ⟨h1.symm, h2⟩
  · intro ⟨h1, h2⟩; exact ⟨h1.symm, h2⟩

theorem nodeAt_cons {α : Type} (g : α) (b : Bool) (p : ℚ) (tv : ℚ) (nv : ℕ)
    (cs : List (UCTTree α)) (i : ℕ) (rest : List ℕ) :
    nodeAt (UCTTree.mk g b p tv nv cs) (i :: rest) =
      match cs.get? i with
      | some c => nodeAt c rest
      | none => none := rfl

/-- `UCTNode.best_child` as an index: `max(self.children.values(), key=Q+U)`,
returning the first maximal entry in iteration (= move) order.  The parent's
visit count feeding `U` is the selecting node's count at call time. -/
def bestChildIdx {α : Type} (sqrtQ : ℕ → ℚ) (parentVisits : ℕ)
    (cs : List (UCTTree α)) : Option (ℕ × ℚ) :=
  listArgmaxVal (fun c => c.Q + c.U sqrtQ parentVisits) cs

/-- `UCTNode.select_leaf`: while the current node is expanded, increment its
visit count, decrement its value total, and descend to its best child; return
the address of the first unexpanded node together with the updated tree.
`none` models the `ValueError` Python's `max` raises when an expanded node
has no children. -/
def selectLeaf {α : Type} (sqrtQ : ℕ → ℚ) : UCTTree α → Option (List ℕ × UCTTree α)
  | .mk g false p tv nv cs => some ([], .mk g false p tv nv cs)
  | .mk g true p tv nv cs =>
      match bestChildIdx sqrtQ (nv + 1) cs with
      | none => none
      | some iv =>
          match hc : cs.get? iv.1 with
          | none => none
          | some c =>
              match selectLeaf sqrtQ c with
              | none => none
              | some pt =>
                  some (iv.1 :: pt.1, .mk g true p (tv - 1) (nv + 1) (cs.set iv.1 pt.2))
termination_by t => sizeOf t
decreasing_by
  have h1 : sizeOf c < sizeOf cs := List.sizeOf_lt_of_mem (List.get?_mem hc)
  simp only [UCTTree.mk.sizeOf_spec]
  omega

/-- The pure stats effect of one `select_leaf` run that descended along
`path`: every node strictly above the returned leaf gains one visit and loses
one unit of value total. -/
def vLossAlong {α : Type} : List ℕ → UCTTree α → UCTTree α
  | [], t => t
  | i :: rest, .mk g b p tv nv cs =>
      .mk g b p (tv - 1) (nv + 1)
        (match cs.get? i with
         | some c => cs.set i (vLossAlong rest c)
         | none => cs)

/-- The children inserted by `UCTNode.expand`: one fresh node per
`(move, prior)` of `enumerate(child_priors)`, in move order. -/
def expandChildren {α : Type} (play : α → ℕ → α) (g : α) (priors : List ℚ) :
    List (UCTTree α) :=
  priors.enum.map (fun mp => UCTTree.mk (play g mp.1) false mp.2 0 0 [])

/-- `UCTNode.expand(child_priors)` on one node: set `is_expanded` and write
`children[move]` for every enumerated prior.  On the (never exercised) case of
a node that already has more children than priors, the dictionary overwrite
semantics keeps the surplus entries. -/
def expandNode {α : Type} (play : α → ℕ → α) (priors : List ℚ) : UCTTree α → UCTTree α
  | .mk g _ p tv nv cs =>
      .mk g true p tv nv (expandChildren play g priors ++ cs.drop priors.length)

/-- `expand` applied to the node addressed by `path`. -/
def expandAt {α : Type} (play : α → ℕ → α) (priors : List ℚ) :
    List ℕ → UCTTree α → UCTTree α
  | [], t => expandNode play priors t
  | i :: rest, .mk g b p tv nv cs =>
      .mk g b p tv nv
        (match cs.get? i with
         | some c => cs.set i (expandAt play priors rest c)
         | none => cs)

/-- Helper for `backup`: add `value_estimate + 1` to the value total of this
node and of every node along `rest` below it. -/
def backupAdd {α : Type} (v : ℚ) : List ℕ → UCTTree α → UCTTree α
  | [], .mk g b p tv nv cs => .mk g b p (tv + (v + 1)) nv cs
  | i :: rest, .mk g b p tv nv cs =>
      .mk g b p (tv + (v + 1)) nv
        (match cs.get? i with
         | some c => cs.set i (backupAdd v rest c)
         | none => cs)

/-- `UCTNode.backup(value_estimate)` called on the node addressed by `path`:
while the current node has a parent, add `value_estimate + 1` to its value
total and move to the parent.  The addressed node and all its strict
ancestors except the root receive the contribution; the root, having no
parent, receives nothing, and a call on the root itself does nothing. -/
def backupAlong {α : Type} (v : ℚ) : List ℕ → UCTTree α → UCTTree α
  | [], t => t
  | i :: rest, .mk g b p tv nv cs =>
      .mk g b p tv nv
        (match cs.get? i with
         | some c => cs.set i (backupAdd v rest c)
         | none => cs)

/-- One read of `UCT_search`: select a leaf, evaluate its game state, expand
the leaf with the returned priors, back up the returned value estimate. -/
def searchStep {α : Type} (evaluate : α → List ℚ × ℚ) (play : α → ℕ → α)
    (sqrtQ : ℕ → ℚ) (t : UCTTree α) : Option (UCTTree α) :=
  match selectLeaf sqrtQ t with
  | none => none
  | some pt =>
      match nodeAt pt.2 pt.1 with
      | none => none
      | some leaf =>
          some (backupAlong (evaluate leaf.gameState).2 pt.1
            (expandAt play (evaluate leaf.gameState).1 pt.1 pt.2))

/-- The `for _ in range(num_reads)` loop of `UCT_search`. -/
def runReads {α : Type} (evaluate : α → List ℚ × ℚ) (play : α → ℕ → α)
    (sqrtQ : ℕ → ℚ) : ℕ → UCTTree α → Option (UCTTree α)
  | 0, t => some t
  | n + 1, t =>
      match searchStep evaluate play sqrtQ t with
      | none => none
      | some t' => runReads evaluate play sqrtQ n t'

/-- `UCT_search(game_state, num_reads)`: build an unexpanded root with prior
0, run the reads, and return `max(root.children.items(), key=number_visits)`
— the first maximal (move, child) pair in move order — together with the
final tree (kept for stating properties of the root's statistics). -/
def UCT_search {α : Type} (evaluate : α → List ℚ × ℚ) (play : α → ℕ → α)
    (sqrtQ : ℕ → ℚ) (g0 : α) (numReads : ℕ) : Option ((ℕ × UCTTree α) × UCTTree α) :=
  match runReads evaluate play sqrtQ numReads (UCTTree.mk g0 false 0 0 0 []) with
  | none => none
  | some t =>
      match listArgmaxVal (fun c => (c.numberVisits : ℚ)) t.childList with
      | none => none
      | some iv =>
          match t.childList.get? iv.1 with
          | some c => some ((iv.1, c), t)
          | none => none

mutual
/-- Executable well-formedness (defined mutually with its traversal of the
children list): every expanded node has at least one child, so Python's
`max` never sees an empty sequence during selection. -/
def WFb {α : Type} : UCTTree α → Bool
  | .mk _ b _ _ _ cs => (!b || !cs.isEmpty) && WFbL cs
def WFbL {α : Type} : List (UCTTree α) → Bool
  | [] => true
  | c :: cs => WFb c && WFbL cs
end

mutual
/-- Executable invariant (defined mutually with its traversal of the children
list): every unexpanded node has no children — nodes are created childless
and only `expand` populates them. -/
def UXb {α : Type} : UCTTree α → Bool
  | .mk _ b _ _ _ cs => (b || cs.isEmpty) && UXbL cs
def UXbL {α : Type} : List (UCTTree α) → Bool
  | [] => true
  | c :: cs => UXb c && UXbL cs
end

theorem get?_set_split {β : Type} (cs : List β) (i : ℕ) (c c' : β)
    (hc : cs.get? i = some c) (a : ℕ) :
    (cs.set i c').get? a = if a = i then some c' else cs.get? a := by
  by_cases ha : a = i
  · subst ha
    rw [if_pos rfl, List.get?_set_eq_of_lt]
    obtain ⟨h, _⟩ := List.get?_eq_some.mp hc
    exact h
  · rw [if_neg ha, List.get?_set_ne _ _ (fun h => ha h.symm)]

/-- The per-node stats effect of `select_leaf` on an expanded node it passes
through: one more visit, one less unit of value total. -/
def bumpVL {α : Type} (inf : NodeInfo α) : NodeInfo α :=
  { inf with total_value := inf.total_value - 1, number_visits := inf.number_visits + 1 }

/-- The per-node stats effect of `backup(v)`: `v + 1` more value total. -/
def bumpBackup {α : Type} (v : ℚ) (inf : NodeInfo α) : NodeInfo α :=
  { inf with total_value := inf.total_value + (v + 1) }

theorem vLossAlong_nodeAt_off {α : Type} :
    ∀ (path : List ℕ) (t : UCTTree α) (q : List ℕ),
      ¬ (initSeg q path ∧ q ≠ path) →
      nodeAt (vLossAlong path t) q = nodeAt t q := by
  intro path
  induction path with
  | nil => intro t q _; rfl
  | cons i rest ih =>
      intro t q hq
      obtain ⟨g, b, p, tv, nv, cs⟩ := t
      cases q with
      | nil =>
          exact absurd ⟨initSeg_nil _, by simp⟩ hq
      | cons a q' =>
          cases hc : cs.get? i with
          | none =>
              simp only [vLossAlong, hc, nodeAt_cons]
          | some c =>
              simp only [vLossAlong, hc, nodeAt_cons]
              rw [get?_set_split cs i c _ hc a]
              by_cases ha : a = i
              · subst ha
                rw [if_pos rfl, hc]
                apply ih
                intro ⟨hseg, hne⟩
                exact hq ⟨initSeg_cons_of hseg, by simpa using hne⟩
              · rw [if_neg ha]

theorem vLossAlong_infoAt_on {α : Type} :
    ∀ (path : List ℕ) (t : UCTTree α) (q : List ℕ),
      initSeg q path → q ≠ path →
      infoAt (vLossAlong path t) q = (infoAt t q).map bumpVL := by
  intro path
  induction path with
  | nil =>
      intro t q hseg hne
      rw [initSeg] at hseg
      simp only [List.take_nil] at hseg
      exact absurd hseg.symm hne
  | cons i rest ih =>
      intro t q hseg hne
      obtain ⟨g, b, p, tv, nv, cs⟩ := t
      cases q with
      | nil =>
          simp only [infoAt, vLossAlong, nodeAt, Option.map_map]
          cases hc : cs.get? i <;>
            simp [hc, infoOf, bumpVL, Function.comp, List.length_set]
      | cons a q' =>
          rw [initSeg_cons_iff] at hseg
          obtain ⟨ha, hseg'⟩ := hseg
          subst ha
          have hne' : q' ≠ rest := by
            intro h; exact hne (by rw [h])
          cases hc : cs.get? a with
          | none =>
              simp only [infoAt, vLossAlong, hc, nodeAt_cons]
              rfl
          | some c =>
              simp only [infoAt, vLossAlong, hc, nodeAt_cons]
              rw [get?_set_split cs a c _ hc a, if_pos rfl]
              exact ih c q' hseg' hne'

theorem nodeAt_append {α : Type} :
    ∀ (q : List ℕ) (t : UCTTree α) (r : List ℕ),
      nodeAt t (q ++ r) = (nodeAt t q).bind (fun s => nodeAt s r) := by
  intro q
  induction q with
  | nil => intro t r; rfl
  | cons a q' ih =>
      intro t r
      obtain ⟨g, b, p, tv, nv, cs⟩ := t
      cases hc : cs.get? a with
      | none => simp only [List.cons_append, nodeAt_cons, hc]; rfl
      | some c => simp only [List.cons_append, nodeAt_cons, hc]; exact ih c r

theorem backupAdd_infoAt_on {α : Type} (v : ℚ) :
    ∀ (rest : List ℕ) (t : UCTTree α) (q : List ℕ),
      initSeg q rest →
      infoAt (backupAdd v rest t) q = (infoAt t q).map (bumpBackup v) := by
  intro rest
  induction rest with
  | nil =>
      intro t q hseg
      rw [initSeg] at hseg
      simp only [List.take_nil] at hseg
      subst hseg
      obtain ⟨g, b, p, tv, nv, cs⟩ := t
      simp [infoAt, backupAdd, nodeAt, infoOf, bumpBackup]
  | cons i rest' ih =>
      intro t q hseg
      obtain ⟨g, b, p, tv, nv, cs⟩ := t
      cases q with
      | nil =>
          simp only [infoAt, backupAdd, nodeAt]
          cases hc : cs.get? i <;>
            simp [hc, infoOf, bumpBackup, List.length_set]
      | cons a q' =>
          rw [initSeg_cons_iff] at hseg
          obtain ⟨ha, hseg'⟩ := hseg
          subst ha
          cases hc : cs.get? a with
          | none =>
              simp only [infoAt, backupAdd, hc, nodeAt_cons]
              rfl
          | some c =>
              simp only [infoAt, backupAdd, hc, nodeAt_cons]
              rw [get?_set_split cs a c _ hc a, if_pos rfl]
              exact ih c q' hseg'

theorem backupAdd_nodeAt_off {α : Type} (v : ℚ) :
    ∀ (rest : List ℕ) (t : UCTTree α) (q : List ℕ),
      ¬ initSeg q rest →
      nodeAt (backupAdd v rest t) q = nodeAt t q := by
  intro rest
  induction rest with
  | nil =>
      intro t q hq
      cases q with
      | nil => exact absurd (initSeg_nil _) hq
      | cons a q' =>
          obtain ⟨g, b, p, tv, nv, cs⟩ := t
          simp only [backupAdd, nodeAt_cons]
  | cons i rest' ih =>
      intro t q hq
      obtain ⟨g, b, p, tv, nv, cs⟩ := t
      cases q with
      | nil => exact absurd (initSeg_nil _) hq
      | cons a q' =>
          cases hc : cs.get? i with
          | none => simp only [backupAdd, hc, nodeAt_cons]
          | some c =>
              simp only [backupAdd, hc, nodeAt_cons]
              rw [get?_set_split cs i c _ hc a]
              by_cases ha : a = i
              · subst ha
                rw [if_pos rfl, hc]
                apply ih
                intro hseg'
                exact hq (initSeg_cons_of hseg')
              · rw [if_neg ha]

theorem backupAlong_infoAt_on {α : Type} (v : ℚ) :
    ∀ (path : List ℕ) (t : UCTTree α) (q : List ℕ),
      initSeg q path → q ≠ [] →
      infoAt (backupAlong v path t) q = (infoAt t q).map (bumpBackup v) := by
  intro path t q hseg hne
  cases path with
  | nil =>
      rw [initSeg] at hseg
      simp only [List.take_nil] at hseg
      exact absurd hseg.symm hne
  | cons i rest =>
      obtain ⟨g, b, p, tv, nv, cs⟩ := t
      cases q with
      | nil => exact absurd rfl hne
      | cons a q' =>
          rw [initSeg_cons_iff] at hseg
          obtain ⟨ha, hseg'⟩ := hseg
          subst ha
          cases hc : cs.get? a with
          | none =>
              simp only [infoAt, backupAlong, hc, nodeAt_cons]
              rfl
          | some c =>
              simp only [infoAt, backupAlong, hc, nodeAt_cons]
              rw [get?_set_split cs a c _ hc a, if_pos rfl]
              exact backupAdd_infoAt_on v rest c q' hseg'

theorem backupAlong_nodeAt_off {α : Type} (v : ℚ) :
    ∀ (path : List ℕ) (t : UCTTree α) (q : List ℕ),
      ¬ initSeg q path →
      nodeAt (backupAlong v path t) q = nodeAt t q := by
  intro path t q hq
  cases path with
  | nil => rfl
  | cons i rest =>
      obtain ⟨g, b, p, tv, nv, cs⟩ := t
      cases q with
      | nil => exact absurd (initSeg_nil _) hq
      | cons a q' =>
          cases hc : cs.get? i with
          | none => simp only [backupAlong, hc, nodeAt_cons]
          | some c =>
              simp only [backupAlong, hc, nodeAt_cons]
              rw [get?_set_split cs i c _ hc a]
              by_cases ha : a = i
              · subst ha
                rw [if_pos rfl, hc]
                apply backupAdd_nodeAt_off
                intro hseg'
                exact hq (initSeg_cons_of hseg')
              · rw [if_neg ha]

theorem backupAlong_infoAt_root {α : Type} (v : ℚ) (path : List ℕ) (t : UCTTree α) :
    infoAt (backupAlong v path t) [] = infoAt t [] := by
  cases path with
  | nil => rfl
  | cons i rest =>
      obtain ⟨g, b, p, tv, nv, cs⟩ := t
      simp only [infoAt, backupAlong, nodeAt]
      cases hc : cs.get? i <;> simp [hc, infoOf, List.length_set]

/-- Claim C3: for every node with at least one ancestor (a nonempty address
`path`) and every value `v`, calling `backup(v)` on it adds `v + 1` to the
cumulative value total of that node and of every strict ancestor below the
root (`bumpBackup v` changes exactly the value total, by `v + 1`), and leaves
the root node's data — in particular its cumulative value total —
unchanged. -/
theorem C3_backup_adds {α : Type} (v : ℚ) (path : List ℕ) (t : UCTTree α)
    (hne : path ≠ []) :
    (∀ q, initSeg q path → q ≠ [] →
      infoAt (backupAlong v path t) q = (infoAt t q).map (bumpBackup v)) ∧
    infoAt (backupAlong v path t) [] = infoAt t [] :=
  ⟨fun q hseg hq => backupAlong_infoAt_on v path t q hseg hq,
   backupAlong_infoAt_root v path t⟩

/-- The three-level tree root → child → grandchild of the spec's test 8. -/
def c3Tree : UCTTree Unit :=
  UCTTree.mk () true 0 10 3
    [UCTTree.mk () true (1/2) 5 2
      [UCTTree.mk () false (1/3) 1 1 []]]

/-- Witness for C3: `backup(2)` from the grandchild of a three-level tree
adds 3 to the grandchild's and the child's totals and leaves the root
untouched. -/
theorem C3_backup_adds_witness :
    ([0, 0] ≠ ([] : List ℕ)) ∧
    ((∀ q, initSeg q [0, 0] → q ≠ [] →
      infoAt (backupAlong 2 [0, 0] c3Tree) q = (infoAt c3Tree q).map (bumpBackup 2)) ∧
     infoAt (backupAlong 2 [0, 0] c3Tree) [] = infoAt c3Tree []) :=
  ⟨by decide, C3_backup_adds 2 [0, 0] c3Tree (by decide)⟩

/-- Claim C10: `backup` never changes any node's visit count; it changes the
cumulative value total only of the nodes on the path from the invoked node up
to, but excluding, the root (adding `v + 1` there — so the virtual-loss visit
increment and the value decrement applied by `select_leaf` are never reverted
or compensated); every node not on that path, and the root's data, are left
exactly as they were. -/
theorem C10_backup_frame {α : Type} (v : ℚ) (path : List ℕ) (t : UCTTree α) :
    (∀ q, (infoAt (backupAlong v path t) q).map (fun i => i.number_visits) =
      (infoAt t q).map (fun i => i.number_visits)) ∧
    (∀ q, ¬ initSeg q path → nodeAt (backupAlong v path t) q = nodeAt t q) ∧
    (∀ q, initSeg q path → q ≠ [] →
      (infoAt (backupAlong v path t) q).map (fun i => i.total_value) =
        (infoAt t q).map (fun i => i.total_value + (v + 1))) ∧
    infoAt (backupAlong v path t) [] = infoAt t [] := by
  refine ⟨?_, ?_, ?_, ?_⟩
  · intro q
    by_cases hseg : initSeg q path
    · cases hq : decide (q = []) with
      | true =>
          have hq' : q = [] := of_decide_eq_true hq
          subst hq'
          rw [backupAlong_infoAt_root]
      | false =>
          have hq' : q ≠ [] := of_decide_eq_false hq
          rw [backupAlong_infoAt_on v path t q hseg hq']
          cases infoAt t q <;> simp [bumpBackup]
    · rw [infoAt, infoAt, backupAlong_nodeAt_off v path t q hseg]
  · intro q hseg
    exact backupAlong_nodeAt_off v path t q hseg
  · intro q hseg hq
    rw [backupAlong_infoAt_on v path t q hseg hq]
    cases infoAt t q <;> simp [bumpBackup]
  · exact backupAlong_infoAt_root v path t

theorem expandAt_infoAt_off {α : Type} (play : α → ℕ → α) (priors : List ℚ) :
    ∀ (path : List ℕ) (t : UCTTree α) (q : List ℕ),
      ¬ initSeg path q →
      infoAt (expandAt play priors path t) q = infoAt t q := by
  intro path
  induction path with
  | nil => intro t q hq; exact absurd (initSeg_nil _) hq
  | cons i rest ih =>
      intro t q hq
      obtain ⟨g, b, p, tv, nv, cs⟩ := t
      cases q with
      | nil =>
          simp only [infoAt, expandAt, nodeAt]
          cases hc : cs.get? i <;> simp [hc, infoOf, List.length_set]
      | cons a q' =>
          cases hc : cs.get? i with
          | none => simp only [infoAt, expandAt, hc, nodeAt_cons]
          | some c =>
              simp only [infoAt, expandAt, hc, nodeAt_cons]
              rw [get?_set_split cs i c _ hc a]
              by_cases ha : a = i
              · subst ha
                rw [if_pos rfl, hc]
                apply ih
                intro hseg'
                exact hq (initSeg_cons_of hseg')
              · rw [if_neg ha]

theorem expandAt_nodeAt_at {α : Type} (play : α → ℕ → α) (priors : List ℚ) :
    ∀ (path : List ℕ) (t st : UCTTree α),
      nodeAt t path = some st →
      nodeAt (expandAt play priors path t) path = some (expandNode play priors st) := by
  intro path
  induction path with
  | nil =>
      intro t st hst
      simp only [nodeAt] at hst
      cases hst
      rfl
  | cons i rest ih =>
      intro t st hst
      obtain ⟨g, b, p, tv, nv, cs⟩ := t
      cases hc : cs.get? i with
      | none => rw [nodeAt_cons, hc] at hst; exact Option.noConfusion hst
      | some c =>
          rw [nodeAt_cons, hc] at hst
          simp only [expandAt, hc, nodeAt_cons]
          rw [get?_set_split cs i c _ hc i, if_pos rfl]
          exact ih c st hst

theorem expandNode_childless {α : Type} (play : α → ℕ → α) (priors : List ℚ)
    (g : α) (b : Bool) (p tv : ℚ) (nv : ℕ) :
    expandNode play priors (UCTTree.mk g b p tv nv []) =
      UCTTree.mk g true p tv nv (expandChildren play g priors) := by
  simp [expandNode, expandChildren]

theorem expandChildren_length {α : Type} (play : α → ℕ → α) (g : α) (priors : List ℚ) :
    (expandChildren play g priors).length = priors.length := by
  simp [expandChildren]

theorem expandChildren_get? {α : Type} (play : α → ℕ → α) (g : α) (priors : List ℚ)
    (m : ℕ) :
    (expandChildren play g priors).get? m =
      (priors.get? m).map (fun pr => UCTTree.mk (play g m) false pr 0 0 []) := by
  rw [expandChildren, List.get?_map, List.get?_enum]
  cases priors.get? m <;> rfl

theorem selectLeaf_unexpanded {α : Type} (sqrtQ : ℕ → ℚ) (g : α) (p tv : ℚ) (nv : ℕ)
    (cs : List (UCTTree α)) :
    selectLeaf sqrtQ (UCTTree.mk g false p tv nv cs) =
      some ([], UCTTree.mk g false p tv nv cs) := by
  simp [selectLeaf]

theorem WFb_mk {α : Type} (g : α) (b : Bool) (p tv : ℚ) (nv : ℕ)
    (cs : List (UCTTree α)) :
    WFb (UCTTree.mk g b p tv nv cs) = ((!b || !cs.isEmpty) && WFbL cs) := rfl

theorem UXb_mk {α : Type} (g : α) (b : Bool) (p tv : ℚ) (nv : ℕ)
    (cs : List (UCTTree α)) :
    UXb (UCTTree.mk g b p tv nv cs) = ((b || cs.isEmpty) && UXbL cs) := rfl

theorem WFbL_all {α : Type} :
    ∀ cs : List (UCTTree α), WFbL cs = true ↔ ∀ c ∈ cs, WFb c = true := by
  intro cs
  induction cs with
  | nil => simp [WFbL]
  | cons c cs ih =>
      rw [WFbL, Bool.and_eq_true, ih]
      constructor
      · intro ⟨h1, h2⟩ x hx
        cases List.mem_cons.mp hx with
        | inl h => rw [h]; exact h1
        | inr h => exact h2 x h
      · intro h
        exact ⟨h c (by simp), fun x hx => h x (by simp [hx])⟩

theorem UXbL_all {α : Type} :
    ∀ cs : List (UCTTree α), UXbL cs = true ↔ ∀ c ∈ cs, UXb c = true := by
  intro cs
  induction cs with
  | nil => simp [UXbL]
  | cons c cs ih =>
      rw [UXbL, Bool.and_eq_true, ih]
      constructor
      · intro ⟨h1, h2⟩ x hx
        cases List.mem_cons.mp hx with
        | inl h => rw [h]; exact h1
        | inr h => exact h2 x h
      · intro h
        exact ⟨h c (by simp), fun x hx => h x (by simp [hx])⟩

theorem WFb_parts {α : Type} {g : α} {b : Bool} {p tv : ℚ} {nv : ℕ}
    {cs : List (UCTTree α)} (h : WFb (UCTTree.mk g b p tv nv cs) = true) :
    (b = true → cs ≠ []) ∧ ∀ c ∈ cs, WFb c = true := by
  rw [WFb_mk, Bool.and_eq_true] at h
  obtain ⟨h1, h2⟩ := h
  constructor
  · intro hb hnil
    subst hb
    subst hnil
    simp at h1
  · exact (WFbL_all cs).mp h2

theorem UXb_parts {α : Type} {g : α} {b : Bool} {p tv : ℚ} {nv : ℕ}
    {cs : List (UCTTree α)} (h : UXb (UCTTree.mk g b p tv nv cs) = true) :
    (b = false → cs = []) ∧ ∀ c ∈ cs, UXb c = true := by
  rw [UXb_mk, Bool.and_eq_true] at h
  obtain ⟨h1, h2⟩ := h
  constructor
  · intro hb
    subst hb
    simp only [Bool.false_or] at h1
    exact List.isEmpty_iff.mp h1
  · exact (UXbL_all cs).mp h2

theorem bestChildIdx_bound {α : Type} {sqrtQ : ℕ → ℚ} {pv : ℕ}
    {cs : List (UCTTree α)} {iv : ℕ × ℚ}
    (h : bestChildIdx sqrtQ pv cs = some iv) :
    ∃ c, cs.get? iv.1 = some c := by
  obtain ⟨i, v⟩ := iv
  obtain ⟨hj, _, _, _⟩ := listArgmaxVal_spec _ cs i v h
  exact ⟨cs.get ⟨i, hj⟩, List.get?_eq_get hj⟩

theorem selectLeaf_none_aux {α : Type} (sqrtQ : ℕ → ℚ) :
    ∀ (n : ℕ) (t : UCTTree α), sizeOf t ≤ n →
      selectLeaf sqrtQ t = none → WFb t = false := by
  intro n
  induction n with
  | zero =>
      intro t ht
      obtain ⟨g, b, p, tv, nv, cs⟩ := t
      simp only [UCTTree.mk.sizeOf_spec] at ht
      omega
  | succ n ih =>
      intro t ht h
      obtain ⟨g, b, p, tv, nv, cs⟩ := t
      cases b with
      | false => rw [selectLeaf_unexpanded] at h; exact Option.noConfusion h
      | true =>
          rw [selectLeaf] at h
          split at h
          · rename_i harg
            have hcs : cs = [] := by
              by_contra hne
              have := listArgmaxVal_isSome
                (fun c => c.Q + c.U sqrtQ (nv + 1)) cs hne
              rw [show listArgmaxVal (fun c => c.Q + c.U sqrtQ (nv + 1)) cs =
                bestChildIdx sqrtQ (nv + 1) cs from rfl, harg] at this
              exact Bool.noConfusion this
            subst hcs
            rw [WFb_mk]
            rfl
          · rename_i iv harg
            split at h
            · rename_i hcs
              obtain ⟨c, hc⟩ := bestChildIdx_bound harg
              rw [hcs] at hc
              exact Option.noConfusion hc
            · rename_i c hcs
              split at h
              · rename_i hrec
                have hsize : sizeOf c ≤ n := by
                  have h1 : sizeOf c < sizeOf cs :=
                    List.sizeOf_lt_of_mem (List.get?_mem hcs)
                  simp only [UCTTree.mk.sizeOf_spec] at ht
                  omega
                have hwfc : WFb c = false := ih c hsize hrec
                cases hwf : WFb (UCTTree.mk g true p tv nv cs) with
                | false => rfl
                | true =>
                    have := (WFb_parts hwf).2 c (List.get?_mem hcs)
                    rw [hwfc] at this
                    exact Bool.noConfusion this
              · exact Option.noConfusion h

/-- Characterization of a successful `select_leaf` run: the updated tree is
exactly the virtual-loss bump along the returned path; the returned path
addresses an unexpanded node of the original tree; and every step of the path
is the best-child index computed at the (already visit-incremented) node it
descends from, with sibling statistics still as in the original tree. -/
theorem selectLeaf_spec_aux {α : Type} (sqrtQ : ℕ → ℚ) :
    ∀ (n : ℕ) (t : UCTTree α), sizeOf t ≤ n →
      ∀ path t2, selectLeaf sqrtQ t = some (path, t2) →
        t2 = vLossAlong path t ∧
        (∃ leaf, nodeAt t path = some leaf ∧ leaf.expandedFlag = false) ∧
        (∀ j, j < path.length → ∃ st mv, nodeAt t (path.take j) = some st ∧
          st.expandedFlag = true ∧
          bestChildIdx sqrtQ (st.numberVisits + 1) st.childList =
            some (path.getD j 0, mv)) := by
  intro n
  induction n with
  | zero =>
      intro t ht
      obtain ⟨g, b, p, tv, nv, cs⟩ := t
      simp only [UCTTree.mk.sizeOf_spec] at ht
      omega
  | succ n ih =>
      intro t ht path t2 h
      obtain ⟨g, b, p, tv, nv, cs⟩ := t
      cases b with
      | false =>
          rw [selectLeaf_unexpanded] at h
          simp only [Option.some.injEq, Prod.mk.injEq] at h
          obtain ⟨hpath, ht2⟩ := h
          subst hpath
          subst ht2
          refine ⟨rfl, ⟨UCTTree.mk g false p tv nv cs, rfl, rfl⟩, ?_⟩
          intro j hj
          simp at hj
      | true =>
          rw [selectLeaf] at h
          split at h
          · exact Option.noConfusion h
          · rename_i iv harg
            split at h
            · exact Option.noConfusion h
            · rename_i c hcs
              split at h
              · exact Option.noConfusion h
              · rename_i pt hrec
                simp only [Option.some.injEq, Prod.mk.injEq] at h
                obtain ⟨hpath, ht2⟩ := h
                have hsize : sizeOf c ≤ n := by
                  have h1 : sizeOf c < sizeOf cs :=
                    List.sizeOf_lt_of_mem (List.get?_mem hcs)
                  simp only [UCTTree.mk.sizeOf_spec] at ht
                  omega
                obtain ⟨ihvl, ⟨leaf, hleaf, hleafflag⟩, ihdesc⟩ :=
                  ih c hsize pt.1 pt.2 hrec
                subst hpath
                refine ⟨?_, ⟨leaf, ?_, hleafflag⟩, ?_⟩
                · rw [← ht2, ihvl]
                  simp only [vLossAlong, hcs]
                · rw [nodeAt_cons, hcs]
                  exact hleaf
                · intro j hj
                  cases j with
                  | zero =>
                      refine ⟨UCTTree.mk g true p tv nv cs, iv.2, rfl, rfl, ?_⟩
                      simp only [UCTTree.numberVisits, UCTTree.childList,
                        List.getD_cons_zero]
                      rw [harg]
                  | succ j' =>
                      have hj' : j' < pt.1.length := by simpa using hj
                      obtain ⟨st, mv, hst, hstflag, hstbest⟩ := ihdesc j' hj'
                      refine ⟨st, mv, ?_, hstflag, ?_⟩
                      · rw [List.take_succ_cons, nodeAt_cons, hcs]
                        exact hst
                      · rw [List.getD_cons_succ]
                        exact hstbest

theorem selectLeaf_total {α : Type} (sqrtQ : ℕ → ℚ) (t : UCTTree α)
    (hwf : WFb t = true) :
    ∃ path t2, selectLeaf sqrtQ t = some (path, t2) := by
  cases hsl : selectLeaf sqrtQ t with
  | none =>
      rw [selectLeaf_none_aux sqrtQ (sizeOf t) t (le_refl _) hsl] at hwf
      exact Bool.noConfusion hwf
  | some pt =>
      obtain ⟨p1, p2⟩ := pt
      exact ⟨p1, p2, rfl⟩

/-- Claim C7 (amended with the well-formedness proviso): on a finite tree in
which every expanded node has at least one child, `select_leaf` terminates
and returns an unexpanded node; it bumps (visit + 1, value total − 1) every
expanded node it passes through — including the node it was invoked on when
that one is already expanded — touches nothing else, and each descent goes to
the child maximizing `Q + U` (ties to the first maximal child in move
order). -/
theorem C7_select_leaf (sqrtQ : ℕ → ℚ) {α : Type} (t : UCTTree α)
    (hwf : WFb t = true) :
    ∃ path leaf,
      selectLeaf sqrtQ t = some (path, vLossAlong path t) ∧
      nodeAt t path = some leaf ∧ leaf.expandedFlag = false ∧
      (∀ q, initSeg q path → q ≠ path →
        infoAt (vLossAlong path t) q = (infoAt t q).map bumpVL) ∧
      (∀ q, ¬ (initSeg q path ∧ q ≠ path) →
        nodeAt (vLossAlong path t) q = nodeAt t q) ∧
      (∀ j, j < path.length → ∃ st chosen,
        nodeAt t (path.take j) = some st ∧ st.expandedFlag = true ∧
        st.childList.get? (path.getD j 0) = some chosen ∧
        (∀ c ∈ st.childList,
          c.Q + c.U sqrtQ (st.numberVisits + 1) ≤
            chosen.Q + chosen.U sqrtQ (st.numberVisits + 1)) ∧
        (∀ m c', m < path.getD j 0 → st.childList.get? m = some c' →
          c'.Q + c'.U sqrtQ (st.numberVisits + 1) <
            chosen.Q + chosen.U sqrtQ (st.numberVisits + 1))) := by
  obtain ⟨path, t2, hsl⟩ := selectLeaf_total sqrtQ t hwf
  obtain ⟨hvl, ⟨leaf, hleaf, hflag⟩, hdesc⟩ :=
    selectLeaf_spec_aux sqrtQ (sizeOf t) t (le_refl _) path t2 hsl
  subst hvl
  refine ⟨path, leaf, hsl, hleaf, hflag,
    (fun q hseg hne => vLossAlong_infoAt_on path t q hseg hne),
    (fun q hq => vLossAlong_nodeAt_off path t q hq), ?_⟩
  intro j hj
  obtain ⟨st, mv, hst, hstflag, hbest⟩ := hdesc j hj
  have hbest' : listArgmaxVal (fun c => c.Q + c.U sqrtQ (st.numberVisits + 1))
      st.childList = some (path.getD j 0, mv) := hbest
  obtain ⟨hib, hkey, hle, hlt⟩ :=
    listArgmaxVal_spec (fun c => c.Q + c.U sqrtQ (st.numberVisits + 1))
      st.childList (path.getD j 0) mv hbest'
  refine ⟨st, st.childList.get ⟨path.getD j 0, hib⟩, hst, hstflag,
    List.get?_eq_get hib, ?_, ?_⟩
  · intro c hc
    obtain ⟨m, hmget⟩ := List.mem_iff_get.mp hc
    rw [hkey, ← hmget]
    exact hle m.1 m.2
  · intro m c' hm hmget
    obtain ⟨hmlt, hmval⟩ := List.get?_eq_some.mp hmget
    rw [hkey, ← hmval]
    exact hlt m hm

/-- Counterexample to C7 as stated: on the finite tree consisting of a single
expanded node with no children, `select_leaf` does not return an unexpanded
node — Python's `max` raises `ValueError` on the empty children sequence,
modelled as `none`. -/
theorem C7_select_leaf_counterexample :
    selectLeaf (fun n => (Nat.sqrt n : ℚ))
      (UCTTree.mk () true 0 0 0 ([] : List (UCTTree Unit))) = none := by
  rw [selectLeaf]
  rfl

/-- Witness for C7 on a concrete expanded two-child tree. -/
theorem C7_select_leaf_witness :
    WFb (UCTTree.mk () true 0 0 1
      [UCTTree.mk () false (2/3) 0 0 [], UCTTree.mk () false (1/3) 0 0 []]) = true ∧
    (∃ path leaf,
      selectLeaf (fun n => (Nat.sqrt n : ℚ))
          (UCTTree.mk () true 0 0 1
            [UCTTree.mk () false (2/3) 0 0 [], UCTTree.mk () false (1/3) 0 0 []]) =
        some (path, vLossAlong path
          (UCTTree.mk () true 0 0 1
            [UCTTree.mk () false (2/3) 0 0 [], UCTTree.mk () false (1/3) 0 0 []])) ∧
      nodeAt (UCTTree.mk () true 0 0 1
        [UCTTree.mk () false (2/3) 0 0 [], UCTTree.mk () false (1/3) 0 0 []]) path =
          some leaf ∧
      leaf.expandedFlag = false ∧
      (∀ q, initSeg q path → q ≠ path →
        infoAt (vLossAlong path (UCTTree.mk () true 0 0 1
          [UCTTree.mk () false (2/3) 0 0 [], UCTTree.mk () false (1/3) 0 0 []])) q =
        (infoAt (UCTTree.mk () true 0 0 1
          [UCTTree.mk () false (2/3) 0 0 [], UCTTree.mk () false (1/3) 0 0 []]) q).map
            bumpVL) ∧
      (∀ q, ¬ (initSeg q path ∧ q ≠ path) →
        nodeAt (vLossAlong path (UCTTree.mk () true 0 0 1
          [UCTTree.mk () false (2/3) 0 0 [], UCTTree.mk () false (1/3) 0 0 []])) q =
        nodeAt (UCTTree.mk () true 0 0 1
          [UCTTree.mk () false (2/3) 0 0 [], UCTTree.mk () false (1/3) 0 0 []]) q) ∧
      (∀ j, j < path.length → ∃ st chosen,
        nodeAt (UCTTree.mk () true 0 0 1
          [UCTTree.mk () false (2/3) 0 0 [], UCTTree.mk () false (1/3) 0 0 []])
            (path.take j) = some st ∧
        st.expandedFlag = true ∧
        st.childList.get? (path.getD j 0) = some chosen ∧
        (∀ c ∈ st.childList,
          c.Q + c.U (fun n => (Nat.sqrt n : ℚ)) (st.numberVisits + 1) ≤
            chosen.Q + chosen.U (fun n => (Nat.sqrt n : ℚ)) (st.numberVisits + 1)) ∧
        (∀ m c', m < path.getD j 0 → st.childList.get? m = some c' →
          c'.Q + c'.U (fun n => (Nat.sqrt n : ℚ)) (st.numberVisits + 1) <
            chosen.Q + chosen.U (fun n => (Nat.sqrt n : ℚ)) (st.numberVisits + 1)))) :=
  ⟨by decide,
    C7_select_leaf (fun n => (Nat.sqrt n : ℚ))
      (UCTTree.mk () true 0 0 1
        [UCTTree.mk () false (2/3) 0 0 [], UCTTree.mk () false (1/3) 0 0 []])
      (by decide)⟩

theorem WFbL_set {α : Type} :
    ∀ (cs : List (UCTTree α)) (i : ℕ) (c' : UCTTree α),
      WFbL cs = true → WFb c' = true → WFbL (cs.set i c') = true := by
  intro cs i c' hcs hc'
  rw [WFbL_all] at hcs ⊢
  intro x hx
  cases List.mem_or_eq_of_mem_set hx with
  | inl h => exact hcs x h
  | inr h => rw [h]; exact hc'

theorem UXbL_set {α : Type} :
    ∀ (cs : List (UCTTree α)) (i : ℕ) (c' : UCTTree α),
      UXbL cs = true → UXb c' = true → UXbL (cs.set i c') = true := by
  intro cs i c' hcs hc'
  rw [UXbL_all] at hcs ⊢
  intro x hx
  cases List.mem_or_eq_of_mem_set hx with
  | inl h => exact hcs x h
  | inr h => rw [h]; exact hc'

theorem WFbL_drop {α : Type} (n : ℕ) (cs : List (UCTTree α))
    (h : WFbL cs = true) : WFbL (cs.drop n) = true := by
  rw [WFbL_all] at h ⊢
  intro x hx
  exact h x (List.mem_of_mem_drop hx)

theorem UXbL_drop {α : Type} (n : ℕ) (cs : List (UCTTree α))
    (h : UXbL cs = true) : UXbL (cs.drop n) = true := by
  rw [UXbL_all] at h ⊢
  intro x hx
  exact h x (List.mem_of_mem_drop hx)

theorem WFb_vLossAlong {α : Type} :
    ∀ (path : List ℕ) (t : UCTTree α), WFb t = true → WFb (vLossAlong path t) = true := by
  intro path
  induction path with
  | nil => intro t h; exact h
  | cons i rest ih =>
      intro t h
      obtain ⟨g, b, p, tv, nv, cs⟩ := t
      cases hc : cs.get? i with
      | none =>
          simp only [List.get?_eq_getElem?] at hc
          simpa [vLossAlong, hc, WFb_mk] using h
      | some c =>
          rw [WFb_mk, Bool.and_eq_true] at h
          obtain ⟨h1, h2⟩ := h
          simp only [vLossAlong, hc, WFb_mk, Bool.and_eq_true]
          constructor
          · simpa using h1
          · exact WFbL_set cs i _ h2
              (ih c ((WFbL_all cs).mp h2 c (List.get?_mem hc)))

theorem UXb_vLossAlong {α : Type} :
    ∀ (path : List ℕ) (t : UCTTree α), UXb t = true → UXb (vLossAlong path t) = true := by
  intro path
  induction path with
  | nil => intro t h; exact h
  | cons i rest ih =>
      intro t h
      obtain ⟨g, b, p, tv, nv, cs⟩ := t
      cases hc : cs.get? i with
      | none =>
          simp only [List.get?_eq_getElem?] at hc
          simpa [vLossAlong, hc, UXb_mk] using h
      | some c =>
          rw [UXb_mk, Bool.and_eq_true] at h
          obtain ⟨h1, h2⟩ := h
          simp only [vLossAlong, hc, UXb_mk, Bool.and_eq_true]
          constructor
          · simpa using h1
          · exact UXbL_set cs i _ h2
              (ih c ((UXbL_all cs).mp h2 c (List.get?_mem hc)))

theorem WFb_backupAdd {α : Type} (v : ℚ) :
    ∀ (rest : List ℕ) (t : UCTTree α), WFb t = true → WFb (backupAdd v rest t) = true := by
  intro rest
  induction rest with
  | nil =>
      intro t h
      obtain ⟨g, b, p, tv, nv, cs⟩ := t
      simpa [backupAdd, WFb_mk] using h
  | cons i rest' ih =>
      intro t h
      obtain ⟨g, b, p, tv, nv, cs⟩ := t
      cases hc : cs.get? i with
      | none =>
          simp only [List.get?_eq_getElem?] at hc
          simpa [backupAdd, hc, WFb_mk] using h
      | some c =>
          rw [WFb_mk, Bool.and_eq_true] at h
          obtain ⟨h1, h2⟩ := h
          simp only [backupAdd, hc, WFb_mk, Bool.and_eq_true]
          constructor
          · simpa using h1
          · exact WFbL_set cs i _ h2
              (ih c ((WFbL_all cs).mp h2 c (List.get?_mem hc)))

theorem UXb_backupAdd {α : Type} (v : ℚ) :
    ∀ (rest : List ℕ) (t : UCTTree α), UXb t = true → UXb (backupAdd v rest t) = true := by
  intro rest
  induction rest with
  | nil =>
      intro t h
      obtain ⟨g, b, p, tv, nv, cs⟩ := t
      simpa [backupAdd, UXb_mk] using h
  | cons i rest' ih =>
      intro t h
      obtain ⟨g, b, p, tv, nv, cs⟩ := t
      cases hc : cs.get? i with
      | none =>
          simp only [List.get?_eq_getElem?] at hc
          simpa [backupAdd, hc, UXb_mk] using h
      | some c =>
          rw [UXb_mk, Bool.and_eq_true] at h
          obtain ⟨h1, h2⟩ := h
          simp only [backupAdd, hc, UXb_mk, Bool.and_eq_true]
          constructor
          · simpa using h1
          · exact UXbL_set cs i _ h2
              (ih c ((UXbL_all cs).mp h2 c (List.get?_mem hc)))

theorem WFb_backupAlong {α : Type} (v : ℚ) (path : List ℕ) (t : UCTTree α)
    (h : WFb t = true) : WFb (backupAlong v path t) = true := by
  cases path with
  | nil => exact h
  | cons i rest =>
      obtain ⟨g, b, p, tv, nv, cs⟩ := t
      cases hc : cs.get? i with
      | none =>
          simp only [List.get?_eq_getElem?] at hc
          simpa [backupAlong, hc, WFb_mk] using h
      | some c =>
          rw [WFb_mk, Bool.and_eq_true] at h
          obtain ⟨h1, h2⟩ := h
          simp only [backupAlong, hc, WFb_mk, Bool.and_eq_true]
          constructor
          · simpa using h1
          · exact WFbL_set cs i _ h2
              (WFb_backupAdd v rest c ((WFbL_all cs).mp h2 c (List.get?_mem hc)))

theorem UXb_backupAlong {α : Type} (v : ℚ) (path : List ℕ) (t : UCTTree α)
    (h : UXb t = true) : UXb (backupAlong v path t) = true := by
  cases path with
  | nil => exact h
  | cons i rest =>
      obtain ⟨g, b, p, tv, nv, cs⟩ := t
      cases hc : cs.get? i with
      | none =>
          simp only [List.get?_eq_getElem?] at hc
          simpa [backupAlong, hc, UXb_mk] using h
      | some c =>
          rw [UXb_mk, Bool.and_eq_true] at h
          obtain ⟨h1, h2⟩ := h
          simp only [backupAlong, hc, UXb_mk, Bool.and_eq_true]
          constructor
          · simpa using h1
          · exact UXbL_set cs i _ h2
              (UXb_backupAdd v rest c ((UXbL_all cs).mp h2 c (List.get?_mem hc)))

theorem WFbL_expandChildren {α : Type} (play : α → ℕ → α) (g : α) (priors : List ℚ) :
    WFbL (expandChildren play g priors) = true := by
  rw [WFbL_all]
  intro c hc
  rw [expandChildren, List.mem_map] at hc
  obtain ⟨mp, _, hcc⟩ := hc
  rw [← hcc, WFb_mk]
  rfl

theorem UXbL_expandChildren {α : Type} (play : α → ℕ → α) (g : α) (priors : List ℚ) :
    UXbL (expandChildren play g priors) = true := by
  rw [UXbL_all]
  intro c hc
  rw [expandChildren, List.mem_map] at hc
  obtain ⟨mp, _, hcc⟩ := hc
  rw [← hcc, UXb_mk]
  rfl

theorem WFbL_append {α : Type} (cs ds : List (UCTTree α))
    (hcs : WFbL cs = true) (hds : WFbL ds = true) : WFbL (cs ++ ds) = true := by
  rw [WFbL_all] at hcs hds ⊢
  intro x hx
  cases List.mem_append.mp hx with
  | inl h => exact hcs x h
  | inr h => exact hds x h

theorem UXbL_append {α : Type} (cs ds : List (UCTTree α))
    (hcs : UXbL cs = true) (hds : UXbL ds = true) : UXbL (cs ++ ds) = true := by
  rw [UXbL_all] at hcs hds ⊢
  intro x hx
  cases List.mem_append.mp hx with
  | inl h => exact hcs x h
  | inr h => exact hds x h

theorem WFb_expandAt {α : Type} (play : α → ℕ → α) (priors : List ℚ)
    (hpri : priors ≠ []) :
    ∀ (path : List ℕ) (t : UCTTree α), WFb t = true →
      WFb (expandAt play priors path t) = true := by
  intro path
  induction path with
  | nil =>
      intro t h
      obtain ⟨g, b, p, tv, nv, cs⟩ := t
      rw [WFb_mk, Bool.and_eq_true] at h
      obtain ⟨_, h2⟩ := h
      simp only [expandAt, expandNode, WFb_mk, Bool.and_eq_true]
      constructor
      · have : (expandChildren play g priors).length = priors.length :=
          expandChildren_length play g priors
        have hne : expandChildren play g priors ≠ [] := by
          intro hnil
          rw [hnil] at this
          exact hpri (List.eq_nil_of_length_eq_zero this.symm)
        simp [List.isEmpty_iff, hne]
      · exact WFbL_append _ _ (WFbL_expandChildren play g priors)
          (WFbL_drop _ cs h2)
  | cons i rest ih =>
      intro t h
      obtain ⟨g, b, p, tv, nv, cs⟩ := t
      cases hc : cs.get? i with
      | none =>
          simp only [List.get?_eq_getElem?] at hc
          simpa [expandAt, hc, WFb_mk] using h
      | some c =>
          rw [WFb_mk, Bool.and_eq_true] at h
          obtain ⟨h1, h2⟩ := h
          simp only [expandAt, hc, WFb_mk, Bool.and_eq_true]
          constructor
          · simpa using h1
          · exact WFbL_set cs i _ h2
              (ih c ((WFbL_all cs).mp h2 c (List.get?_mem hc)))

theorem UXb_expandAt {α : Type} (play : α → ℕ → α) (priors : List ℚ) :
    ∀ (path : List ℕ) (t : UCTTree α), UXb t = true →
      UXb (expandAt play priors path t) = true := by
  intro path
  induction path with
  | nil =>
      intro t h
      obtain ⟨g, b, p, tv, nv, cs⟩ := t
      rw [UXb_mk, Bool.and_eq_true] at h
      obtain ⟨_, h2⟩ := h
      simp only [expandAt, expandNode, UXb_mk, Bool.and_eq_true]
      constructor
      · rfl
      · exact UXbL_append _ _ (UXbL_expandChildren play g priors)
          (UXbL_drop _ cs h2)
  | cons i rest ih =>
      intro t h
      obtain ⟨g, b, p, tv, nv, cs⟩ := t
      cases hc : cs.get? i with
      | none =>
          simp only [List.get?_eq_getElem?] at hc
          simpa [expandAt, hc, UXb_mk] using h
      | some c =>
          rw [UXb_mk, Bool.and_eq_true] at h
          obtain ⟨h1, h2⟩ := h
          simp only [expandAt, hc, UXb_mk, Bool.and_eq_true]
          constructor
          · simpa using h1
          · exact UXbL_set cs i _ h2
              (ih c ((UXbL_all cs).mp h2 c (List.get?_mem hc)))

/-- The total of the root's children's visit counts, as read by the final
`max` of `UCT_search`. -/
def childVisitSum {α : Type} (t : UCTTree α) : ℕ :=
  (t.childList.map UCTTree.numberVisits).sum

theorem infoOf_numberVisits {α : Type} (t : UCTTree α) :
    (infoOf t).number_visits = t.numberVisits := by
  obtain ⟨g, b, p, tv, nv, cs⟩ := t
  rfl

theorem infoOf_expandedFlag {α : Type} (t : UCTTree α) :
    (infoOf t).is_expanded = t.expandedFlag := by
  obtain ⟨g, b, p, tv, nv, cs⟩ := t
  rfl

theorem infoOf_numChildren {α : Type} (t : UCTTree α) :
    (infoOf t).numChildren = t.childList.length := by
  obtain ⟨g, b, p, tv, nv, cs⟩ := t
  rfl

theorem nodeAt_singleton {α : Type} (t : UCTTree α) (m : ℕ) :
    nodeAt t [m] = t.childList.get? m := by
  obtain ⟨g, b, p, tv, nv, cs⟩ := t
  rw [nodeAt_cons]
  show (match cs.get? m with
    | some c => nodeAt c []
    | none => none) = cs.get? m
  cases cs.get? m <;> rfl

theorem expandChildren_visitSum {α : Type} (play : α → ℕ → α) (g : α)
    (priors : List ℚ) :
    ((expandChildren play g priors).map UCTTree.numberVisits).sum = 0 := by
  rw [List.sum_eq_zero_iff]
  intro x hx
  rw [List.mem_map] at hx
  obtain ⟨c, hc, hcx⟩ := hx
  rw [expandChildren, List.mem_map] at hc
  obtain ⟨mp, _, hcc⟩ := hc
  rw [← hcx, ← hcc]
  rfl

theorem sum_le_of_getD_le :
    ∀ (l l' : List ℕ), l'.length = l.length →
      (∀ m, m < l.length → l'.getD m 0 ≤ l.getD m 0) → l'.sum ≤ l.sum := by
  intro l
  induction l with
  | nil =>
      intro l' hlen _
      rw [List.length_nil, List.length_eq_zero] at hlen
      subst hlen
      exact le_refl _
  | cons x xs ih =>
      intro l' hlen h
      cases l' with
      | nil => simp at hlen
      | cons y ys =>
          simp only [List.length_cons] at hlen
          have hy : y ≤ x := by
            have := h 0 (by simp)
            simpa using this
          have hys : ys.sum ≤ xs.sum := by
            apply ih ys (by omega)
            intro m hm
            have := h (m + 1) (by simp; omega)
            simpa using this
          simp only [List.sum_cons]
          omega

theorem sum_le_succ_of_getD_le (i : ℕ) :
    ∀ (l l' : List ℕ), l'.length = l.length →
      (∀ m, m < l.length → m ≠ i → l'.getD m 0 ≤ l.getD m 0) →
      (i < l.length → l'.getD i 0 ≤ l.getD i 0 + 1) →
      l'.sum ≤ l.sum + 1 := by
  intro l
  induction l generalizing i with
  | nil =>
      intro l' hlen _ _
      rw [List.length_nil, List.length_eq_zero] at hlen
      subst hlen
      simp
  | cons x xs ih =>
      intro l' hlen hoff hon
      cases l' with
      | nil => simp at hlen
      | cons y ys =>
          simp only [List.length_cons] at hlen
          cases i with
          | zero =>
              have hy : y ≤ x + 1 := by
                have := hon (by simp)
                simpa using this
              have hys : ys.sum ≤ xs.sum := by
                apply sum_le_of_getD_le xs ys (by omega)
                intro m hm
                have := hoff (m + 1) (by simp; omega) (by omega)
                simpa using this
              simp only [List.sum_cons]
              omega
          | succ i' =>
              have hy : y ≤ x := by
                have := hoff 0 (by simp) (by omega)
                simpa using this
              have hys : ys.sum ≤ xs.sum + 1 := by
                apply ih i' ys (by omega)
                · intro m hm hmi
                  have := hoff (m + 1) (by simp; omega) (by omega)
                  simpa using this
                · intro hi
                  have := hon (by simp; omega)
                  simpa using this
              simp only [List.sum_cons]
              omega

theorem mapVisits_getD_of_get? {α : Type} (cs : List (UCTTree α)) (m : ℕ)
    (c : UCTTree α) (hc : cs.get? m = some c) :
    (cs.map UCTTree.numberVisits).getD m 0 = c.numberVisits := by
  have : (cs.map UCTTree.numberVisits).get? m = some c.numberVisits := by
    rw [List.get?_map, hc]
    rfl
  rw [List.getD_eq_getElem?_getD, ← List.get?_eq_getElem?, this]
  rfl

theorem mapVisits_getD_of_none {α : Type} (cs : List (UCTTree α)) (m : ℕ)
    (hc : cs.get? m = none) :
    (cs.map UCTTree.numberVisits).getD m 0 = 0 := by
  have : (cs.map UCTTree.numberVisits).get? m = none := by
    rw [List.get?_map, hc]
    rfl
  rw [List.getD_eq_getElem?_getD, ← List.get?_eq_getElem?, this]
  rfl

theorem searchStep_eq {α : Type} (evaluate : α → List ℚ × ℚ) (play : α → ℕ → α)
    (sqrtQ : ℕ → ℚ) (t : UCTTree α) (path : List ℕ) (leaf : UCTTree α)
    (hsl : selectLeaf sqrtQ t = some (path, vLossAlong path t))
    (hleaf : nodeAt (vLossAlong path t) path = some leaf) :
    searchStep evaluate play sqrtQ t =
      some (backupAlong (evaluate leaf.gameState).2 path
        (expandAt play (evaluate leaf.gameState).1 path (vLossAlong path t))) := by
  rw [searchStep, hsl]
  show (match nodeAt (vLossAlong path t) path with
    | none => none
    | some leaf =>
        some (backupAlong (evaluate leaf.gameState).2 path
          (expandAt play (evaluate leaf.gameState).1 path (vLossAlong path t)))) = _
  rw [hleaf]

theorem infoAt_singleton {α : Type} (t : UCTTree α) (m : ℕ) :
    infoAt t [m] = (t.childList.get? m).map infoOf := by
  rw [infoAt, nodeAt_singleton]

theorem infoAt_nil {α : Type} (t : UCTTree α) : infoAt t [] = some (infoOf t) := rfl

theorem mapVisits_getD_eq_of_infoAt {α : Type} (tA tB : UCTTree α) (m : ℕ)
    (h : infoAt tA [m] = infoAt tB [m]) :
    (tA.childList.map UCTTree.numberVisits).getD m 0 =
      (tB.childList.map UCTTree.numberVisits).getD m 0 := by
  rw [infoAt_singleton, infoAt_singleton] at h
  cases hA : tA.childList.get? m with
  | none =>
      cases hB : tB.childList.get? m with
      | none => rw [mapVisits_getD_of_none _ _ hA, mapVisits_getD_of_none _ _ hB]
      | some c => rw [hA, hB] at h; exact Option.noConfusion h
  | some c =>
      cases hB : tB.childList.get? m with
      | none => rw [hA, hB] at h; exact Option.noConfusion h
      | some c' =>
          rw [hA, hB] at h
          have h' : some (infoOf c) = some (infoOf c') := h
          have h'' := Option.some.inj h'
          rw [mapVisits_getD_of_get? _ _ _ hA, mapVisits_getD_of_get? _ _ _ hB,
            ← infoOf_numberVisits c, ← infoOf_numberVisits c', h'']

theorem expandNode_numberVisits {α : Type} (play : α → ℕ → α) (priors : List ℚ)
    (st : UCTTree α) :
    (expandNode play priors st).numberVisits = st.numberVisits := by
  obtain ⟨g, b, p, tv, nv, cs⟩ := st
  rfl

theorem initSeg_cons_singleton {i m : ℕ} {rest : List ℕ}
    (h : initSeg (i :: rest) [m]) : i = m ∧ rest = [] := by
  rw [initSeg, List.length_cons] at h
  cases rest with
  | nil =>
      have h1 : [m] = [i] := by simpa using h
      have h2 := (List.cons.injEq m ([] : List ℕ) i []).mp h1
      exact ⟨h2.1.symm, rfl⟩
  | cons r rs =>
      exfalso
      have hlen := congrArg List.length h
      simp only [List.length_take, List.length_cons] at hlen
      simp at hlen

/-- Effect of one read on an already-expanded root: the step succeeds, keeps
the invariants, increments the root's visit count by exactly one, preserves
the number of root children, and increases the total of the children's visit
counts by at most one. -/
theorem searchStep_expanded {α : Type} (evaluate : α → List ℚ × ℚ) (play : α → ℕ → α)
    (sqrtQ : ℕ → ℚ) (t : UCTTree α)
    (hwf : WFb t = true) (hux : UXb t = true) (hflag : t.expandedFlag = true)
    (hpri : ∀ g, (evaluate g).1 ≠ []) :
    ∃ t', searchStep evaluate play sqrtQ t = some t' ∧
      WFb t' = true ∧ UXb t' = true ∧ t'.expandedFlag = true ∧
      t'.numberVisits = t.numberVisits + 1 ∧
      t'.childList.length = t.childList.length ∧
      childVisitSum t' ≤ childVisitSum t + 1 := by
  obtain ⟨path, t2raw, hsl0⟩ := selectLeaf_total sqrtQ t hwf
  obtain ⟨hvl, ⟨leaf, hleafT, hleafflag⟩, hdesc⟩ :=
    selectLeaf_spec_aux sqrtQ (sizeOf t) t (le_refl _) path t2raw hsl0
  subst hvl
  cases path with
  | nil =>
      exfalso
      have hlt : t = leaf := Option.some.inj hleafT
      rw [← hlt, hflag] at hleafflag
      exact Bool.noConfusion hleafflag
  | cons i rest =>
      have hleaf1 : nodeAt (vLossAlong (i :: rest) t) (i :: rest) = some leaf := by
        rw [vLossAlong_nodeAt_off (i :: rest) t (i :: rest) (fun hand => hand.2 rfl)]
        exact hleafT
      have hstep := searchStep_eq evaluate play sqrtQ t (i :: rest) leaf hsl0 hleaf1
      refine ⟨_, hstep, ?_, ?_, ?_, ?_, ?_, ?_⟩ <;>
        [skip; skip; skip; skip; skip; skip]
      case _ =>
        exact WFb_backupAlong _ _ _
          (WFb_expandAt play _ (hpri _) _ _ (WFb_vLossAlong _ _ hwf))
      case _ =>
        exact UXb_backupAlong _ _ _
          (UXb_expandAt play _ _ _ (UXb_vLossAlong _ _ hux))
      all_goals {
        have hne1 : ([] : List ℕ) ≠ i :: rest := by simp
        have hroot1 : infoAt (vLossAlong (i :: rest) t) [] = some (bumpVL (infoOf t)) := by
          rw [vLossAlong_infoAt_on (i :: rest) t [] (initSeg_nil _) hne1, infoAt_nil]
          rfl
        have hnis : ¬ initSeg (i :: rest) [] := by
          intro hseg
          have := initSeg_length_le hseg
          simp at this
        have hroot2 : infoAt (expandAt play (evaluate leaf.gameState).1 (i :: rest)
            (vLossAlong (i :: rest) t)) [] = some (bumpVL (infoOf t)) := by
          rw [expandAt_infoAt_off play _ (i :: rest) _ [] hnis, hroot1]
        have hroot3 : infoAt (backupAlong (evaluate leaf.gameState).2 (i :: rest)
            (expandAt play (evaluate leaf.gameState).1 (i :: rest)
              (vLossAlong (i :: rest) t))) [] = some (bumpVL (infoOf t)) := by
          rw [backupAlong_infoAt_root, hroot2]
        have hio : infoOf (backupAlong (evaluate leaf.gameState).2 (i :: rest)
            (expandAt play (evaluate leaf.gameState).1 (i :: rest)
              (vLossAlong (i :: rest) t))) = bumpVL (infoOf t) := by
          have h := hroot3
          rw [infoAt_nil] at h
          exact Option.some.inj h
        first
        | -- expanded flag
          (rw [← infoOf_expandedFlag, hio]
           show (infoOf t).is_expanded = true
           rw [infoOf_expandedFlag]
           exact hflag)
        | -- visit count
          (rw [← infoOf_numberVisits, hio]
           show (infoOf t).number_visits + 1 = t.numberVisits + 1
           rw [infoOf_numberVisits])
        | -- child count
          (rw [← infoOf_numChildren, hio]
           show (infoOf t).numChildren = t.childList.length
           rw [infoOf_numChildren])
        | -- child visit sum
          (obtain ⟨st, mv, hst, _, hbest⟩ := hdesc 0 (by simp)
           have hstt : t = st := Option.some.inj hst
           subst hstt
           simp only [List.getD_cons_zero] at hbest
           obtain ⟨c, hci⟩ := bestChildIdx_bound hbest
           have hclen : (backupAlong (evaluate leaf.gameState).2 (i :: rest)
               (expandAt play (evaluate leaf.gameState).1 (i :: rest)
                 (vLossAlong (i :: rest) t))).childList.length = t.childList.length := by
             rw [← infoOf_numChildren, hio]
             show (infoOf t).numChildren = t.childList.length
             rw [infoOf_numChildren]
           have hoffm : ∀ m, m ≠ i →
               infoAt (backupAlong (evaluate leaf.gameState).2 (i :: rest)
                 (expandAt play (evaluate leaf.gameState).1 (i :: rest)
                   (vLossAlong (i :: rest) t))) [m] = infoAt t [m] := by
             intro m hm
             have h1 : nodeAt (vLossAlong (i :: rest) t) [m] = nodeAt t [m] := by
               apply vLossAlong_nodeAt_off
               intro hand
               rw [initSeg_cons_iff] at hand
               exact hm hand.1.1
             have h2 : infoAt (expandAt play (evaluate leaf.gameState).1 (i :: rest)
                 (vLossAlong (i :: rest) t)) [m] =
                 infoAt (vLossAlong (i :: rest) t) [m] := by
               apply expandAt_infoAt_off
               intro hseg
               obtain ⟨him, _⟩ := initSeg_cons_singleton hseg
               exact hm him.symm
             have h3 : nodeAt (backupAlong (evaluate leaf.gameState).2 (i :: rest)
                 (expandAt play (evaluate leaf.gameState).1 (i :: rest)
                   (vLossAlong (i :: rest) t))) [m] =
                 nodeAt (expandAt play (evaluate leaf.gameState).1 (i :: rest)
                   (vLossAlong (i :: rest) t)) [m] := by
               apply backupAlong_nodeAt_off
               intro hseg
               rw [initSeg_cons_iff] at hseg
               exact hm hseg.1
             simp only [infoAt] at h2 ⊢
             rw [h3, h2, h1]
           have honi : ((backupAlong (evaluate leaf.gameState).2 (i :: rest)
               (expandAt play (evaluate leaf.gameState).1 (i :: rest)
                 (vLossAlong (i :: rest) t))).childList.map
                   UCTTree.numberVisits).getD i 0 ≤
               (t.childList.map UCTTree.numberVisits).getD i 0 + 1 := by
             have hsegi : initSeg [i] (i :: rest) := initSeg_cons_of (initSeg_nil _)
             have hbk : infoAt (backupAlong (evaluate leaf.gameState).2 (i :: rest)
                 (expandAt play (evaluate leaf.gameState).1 (i :: rest)
                   (vLossAlong (i :: rest) t))) [i] =
                 (infoAt (expandAt play (evaluate leaf.gameState).1 (i :: rest)
                   (vLossAlong (i :: rest) t)) [i]).map
                     (bumpBackup (evaluate leaf.gameState).2) :=
               backupAlong_infoAt_on _ _ _ [i] hsegi (by simp)
             cases rest with
             | nil =>
                 have h1 : nodeAt (vLossAlong [i] t) [i] = nodeAt t [i] :=
                   vLossAlong_nodeAt_off [i] t [i] (fun hand => hand.2 rfl)
                 have h2 : nodeAt (expandAt play (evaluate leaf.gameState).1 [i]
                     (vLossAlong [i] t)) [i] =
                     some (expandNode play (evaluate leaf.gameState).1 leaf) :=
                   expandAt_nodeAt_at play _ [i] _ leaf hleaf1
                 have hleafi : t.childList.get? i = some leaf := by
                   rw [← nodeAt_singleton]
                   exact hleafT
                 have hinfo : infoAt (backupAlong (evaluate leaf.gameState).2 [i]
                     (expandAt play (evaluate leaf.gameState).1 [i]
                       (vLossAlong [i] t))) [i] =
                     some (bumpBackup (evaluate leaf.gameState).2
                       (infoOf (expandNode play (evaluate leaf.gameState).1 leaf))) := by
                   rw [hbk]
                   simp only [infoAt]
                   rw [h2]
                   rfl
                 rw [infoAt_singleton] at hinfo
                 cases hci3 : (backupAlong (evaluate leaf.gameState).2 [i]
                     (expandAt play (evaluate leaf.gameState).1 [i]
                       (vLossAlong [i] t))).childList.get? i with
                 | none => rw [hci3] at hinfo; exact Option.noConfusion hinfo
                 | some c3 =>
                     rw [hci3] at hinfo
                     have hinfo' := Option.some.inj hinfo
                     rw [mapVisits_getD_of_get? _ _ _ hci3,
                       mapVisits_getD_of_get? _ _ _ hleafi]
                     have : c3.numberVisits =
                         (bumpBackup (evaluate leaf.gameState).2
                           (infoOf (expandNode play (evaluate leaf.gameState).1
                             leaf))).number_visits := by
                       rw [← hinfo', infoOf_numberVisits]
                     rw [this]
                     show (infoOf (expandNode play (evaluate leaf.gameState).1
                       leaf)).number_visits ≤ leaf.numberVisits + 1
                     rw [infoOf_numberVisits, expandNode_numberVisits]
                     omega
             | cons r rs =>
                 have h1 : infoAt (vLossAlong (i :: r :: rs) t) [i] =
                     (infoAt t [i]).map bumpVL :=
                   vLossAlong_infoAt_on _ _ [i]
                     (initSeg_cons_of (initSeg_nil _)) (by simp)
                 have h2 : infoAt (expandAt play (evaluate leaf.gameState).1
                     (i :: r :: rs) (vLossAlong (i :: r :: rs) t)) [i] =
                     infoAt (vLossAlong (i :: r :: rs) t) [i] := by
                   apply expandAt_infoAt_off
                   intro hseg
                   obtain ⟨_, hrest⟩ := initSeg_cons_singleton hseg
                   exact absurd hrest (by simp)
                 have hinfo : infoAt (backupAlong (evaluate leaf.gameState).2
                     (i :: r :: rs) (expandAt play (evaluate leaf.gameState).1
                       (i :: r :: rs) (vLossAlong (i :: r :: rs) t))) [i] =
                     some (bumpBackup (evaluate leaf.gameState).2
                       (bumpVL (infoOf c))) := by
                   rw [hbk, h2, h1, infoAt_singleton, hci]
                   rfl
                 rw [infoAt_singleton] at hinfo
                 cases hci3 : (backupAlong (evaluate leaf.gameState).2 (i :: r :: rs)
                     (expandAt play (evaluate leaf.gameState).1 (i :: r :: rs)
                       (vLossAlong (i :: r :: rs) t))).childList.get? i with
                 | none => rw [hci3] at hinfo; exact Option.noConfusion hinfo
                 | some c3 =>
                     rw [hci3] at hinfo
                     have hinfo' := Option.some.inj hinfo
                     rw [mapVisits_getD_of_get? _ _ _ hci3,
                       mapVisits_getD_of_get? _ _ _ hci]
                     have : c3.numberVisits =
                         (bumpBackup (evaluate leaf.gameState).2
                           (bumpVL (infoOf c))).number_visits := by
                       rw [← hinfo', infoOf_numberVisits]
                     rw [this]
                     show (infoOf c).number_visits + 1 ≤ c.numberVisits + 1
                     rw [infoOf_numberVisits]
           rw [childVisitSum, childVisitSum]
           apply sum_le_succ_of_getD_le i
           · rw [List.length_map, List.length_map, hclen]
           · intro m hm hmne
             have := hoffm m hmne
             exact le_of_eq (mapVisits_getD_eq_of_infoAt _ _ m this)
           · intro _
             exact honi)
      }

theorem expandChildren_ne_nil {α : Type} (play : α → ℕ → α) (g : α)
    {priors : List ℚ} (hpri : priors ≠ []) :
    expandChildren play g priors ≠ [] := by
  intro hnil
  have := expandChildren_length play g priors
  rw [hnil] at this
  exact hpri (List.eq_nil_of_length_eq_zero this.symm)

/-- Effect of the first read on the fresh unexpanded root: the root is
expanded with one fresh child per prior, its own statistics are untouched by
`backup` (the root has no parent), and all children start with zero visits. -/
theorem searchStep_unexpanded {α : Type} (evaluate : α → List ℚ × ℚ) (play : α → ℕ → α)
    (sqrtQ : ℕ → ℚ) (g : α) (p tv : ℚ) (nv : ℕ)
    (hpri : ∀ g0, (evaluate g0).1 ≠ []) :
    searchStep evaluate play sqrtQ (UCTTree.mk g false p tv nv []) =
      some (UCTTree.mk g true p tv nv (expandChildren play g (evaluate g).1)) ∧
    WFb (UCTTree.mk g true p tv nv (expandChildren play g (evaluate g).1)) = true ∧
    UXb (UCTTree.mk g true p tv nv (expandChildren play g (evaluate g).1)) = true ∧
    childVisitSum
      (UCTTree.mk g true p tv nv (expandChildren play g (evaluate g).1)) = 0 := by
  refine ⟨?_, ?_, ?_, ?_⟩
  · rw [searchStep, selectLeaf_unexpanded]
    show some (backupAlong (evaluate g).2 []
      (expandAt play (evaluate g).1 [] (UCTTree.mk g false p tv nv []))) = _
    simp [backupAlong, expandAt, expandNode]
  · rw [WFb_mk, Bool.and_eq_true]
    refine ⟨?_, WFbL_expandChildren play g (evaluate g).1⟩
    simp [List.isEmpty_iff, expandChildren_ne_nil play g (hpri g)]
  · rw [UXb_mk, Bool.and_eq_true]
    exact ⟨rfl, UXbL_expandChildren play g (evaluate g).1⟩
  · exact expandChildren_visitSum play g (evaluate g).1

theorem runReads_expanded {α : Type} (evaluate : α → List ℚ × ℚ) (play : α → ℕ → α)
    (sqrtQ : ℕ → ℚ) (hpri : ∀ g, (evaluate g).1 ≠ []) :
    ∀ (n : ℕ) (t : UCTTree α), WFb t = true → UXb t = true →
      t.expandedFlag = true →
      ∃ t', runReads evaluate play sqrtQ n t = some t' ∧
        WFb t' = true ∧ UXb t' = true ∧ t'.expandedFlag = true ∧
        t'.numberVisits = t.numberVisits + n ∧
        t'.childList.length = t.childList.length ∧
        childVisitSum t' ≤ childVisitSum t + n := by
  intro n
  induction n with
  | zero =>
      intro t hwf hux hflag
      exact ⟨t, rfl, hwf, hux, hflag, rfl, rfl, le_refl _⟩
  | succ n ih =>
      intro t hwf hux hflag
      obtain ⟨t1, hstep, hwf1, hux1, hflag1, hv1, hlen1, hsum1⟩ :=
        searchStep_expanded evaluate play sqrtQ t hwf hux hflag hpri
      obtain ⟨t', hrun, hwf', hux', hflag', hv', hlen', hsum'⟩ := ih t1 hwf1 hux1 hflag1
      refine ⟨t', ?_, hwf', hux', hflag', by omega, by omega, by omega⟩
      rw [runReads, hstep]
      exact hrun

theorem WFb_flag_children {α : Type} (t : UCTTree α) (hwf : WFb t = true)
    (hflag : t.expandedFlag = true) : t.childList ≠ [] := by
  obtain ⟨g, b, p, tv, nv, cs⟩ := t
  exact (WFb_parts hwf).1 hflag

/-- Claim C2 (amended): for every call of the search driver with
`num_reads = N ≥ 1` over an evaluator returning nonempty priors, the returned
pair is the root's child with the highest visit count together with its move
index (ties to the first maximal entry in iteration order of the children
mapping); the root's own visit count equals `N − 1`, and the sum of visit
counts over all of the root's children is at most `N − 1` — reads that
terminate at an unexpanded root child leave every child visit count
unchanged, so the sum never reaches `N`. -/
theorem C2_uct_search {α : Type} (evaluate : α → List ℚ × ℚ) (play : α → ℕ → α)
    (sqrtQ : ℕ → ℚ) (g0 : α) (N : ℕ)
    (hN : 1 ≤ N) (hpri : ∀ g, (evaluate g).1 ≠ []) :
    ∃ i c t, UCT_search evaluate play sqrtQ g0 N = some ((i, c), t) ∧
      t.childList.get? i = some c ∧
      (∀ c' ∈ t.childList, c'.numberVisits ≤ c.numberVisits) ∧
      (∀ m c', m < i → t.childList.get? m = some c' →
        c'.numberVisits < c.numberVisits) ∧
      t.numberVisits = N - 1 ∧
      childVisitSum t ≤ N - 1 := by
  obtain ⟨n, rfl⟩ : ∃ n, N = n + 1 := ⟨N - 1, by omega⟩
  obtain ⟨hstep1, hwf1, hux1, hsum1⟩ :=
    searchStep_unexpanded evaluate play sqrtQ g0 0 0 0 hpri
  obtain ⟨t', hrun, hwf', hux', hflag', hv', hlen', hsum'⟩ :=
    runReads_expanded evaluate play sqrtQ hpri n
      (UCTTree.mk g0 true 0 0 0 (expandChildren play g0 (evaluate g0).1))
      hwf1 hux1 rfl
  have hrunN : runReads evaluate play sqrtQ (n + 1)
      (UCTTree.mk g0 false 0 0 0 []) = some t' := by
    rw [runReads, hstep1]
    exact hrun
  have hvis : t'.numberVisits = n := by
    rw [hv']
    simp [UCTTree.numberVisits]
  have hsum : childVisitSum t' ≤ n := by
    rw [hsum1] at hsum'
    omega
  have hch : t'.childList ≠ [] := WFb_flag_children t' hwf' hflag'
  cases harg : listArgmaxVal (fun c => (c.numberVisits : ℚ)) t'.childList with
  | none => exact absurd ((listArgmaxVal_eq_none _ _).mp harg) hch
  | some iv =>
      obtain ⟨j, mv⟩ := iv
      obtain ⟨hj, hkey, hle, hlt⟩ := listArgmaxVal_spec _ _ j mv harg
      have hgetc : t'.childList.get? j = some (t'.childList.get ⟨j, hj⟩) :=
        List.get?_eq_get hj
      refine ⟨j, t'.childList.get ⟨j, hj⟩, t', ?_, hgetc, ?_, ?_, by omega, by omega⟩
      · rw [UCT_search, hrunN]
        show (match listArgmaxVal (fun c => (c.numberVisits : ℚ)) t'.childList with
          | none => none
          | some iv =>
              match t'.childList.get? iv.1 with
              | some c => some ((iv.1, c), t')
              | none => none) = _
        rw [harg]
        show (match t'.childList.get? j with
          | some c => some ((j, c), t')
          | none => none) = _
        rw [hgetc]
      · intro c' hc'
        obtain ⟨m, hmget⟩ := List.mem_iff_get.mp hc'
        have hh := hle m.1 m.2
        rw [hmget] at hh
        rw [← hkey] at hh
        exact_mod_cast hh
      · intro m c' hm hmget'
        obtain ⟨hmlt, hval⟩ := List.get?_eq_some.mp hmget'
        have hh := hlt m hm
        rw [hval] at hh
        rw [← hkey] at hh
        exact_mod_cast hh

/-- The deterministic stub evaluator used for the C2 counterexample and
witness: two equal priors, constant value estimate 0. -/
def stubEvalC2 : Unit → List ℚ × ℚ := fun _ => ([1, 1], 0)

def stubPlayC2 : Unit → ℕ → Unit := fun _ _ => ()

def stubSqrtC2 : ℕ → ℚ := fun n => (Nat.sqrt n : ℚ)

/-- Counterexample to C2 as stated: with `num_reads = N = 1` the first (and
only) read expands the root itself; no read ever passes through a root
child, so every root child still has zero visits and their sum is `0`, not
`N = 1`. -/
theorem C2_uct_search_counterexample :
    UCT_search stubEvalC2 stubPlayC2 stubSqrtC2 () 1 =
      some ((0, UCTTree.mk () false 1 0 0 []),
        UCTTree.mk () true 0 0 0
          [UCTTree.mk () false 1 0 0 [], UCTTree.mk () false 1 0 0 []]) ∧
    childVisitSum (UCTTree.mk () true 0 0 0
      [UCTTree.mk () false 1 0 0 [], UCTTree.mk () false 1 0 0 []]) = 0 ∧
    (0 : ℕ) ≠ 1 := by
  refine ⟨?_, by decide, by decide⟩
  simp [UCT_search, runReads, searchStep, selectLeaf, nodeAt, expandAt,
    expandNode, expandChildren, backupAlong, stubEvalC2, stubPlayC2,
    UCTTree.gameState, listArgmaxVal, UCTTree.childList, UCTTree.numberVisits,
    List.enum]

/-- Witness for the amended C2 at `N = 2` over the deterministic stub. -/
theorem C2_uct_search_witness :
    (1 ≤ 2 ∧ ∀ g : Unit, (stubEvalC2 g).1 ≠ []) ∧
    (∃ i c t, UCT_search stubEvalC2 stubPlayC2 stubSqrtC2 () 2 = some ((i, c), t) ∧
      t.childList.get? i = some c ∧
      (∀ c' ∈ t.childList, c'.numberVisits ≤ c.numberVisits) ∧
      (∀ m c', m < i → t.childList.get? m = some c' →
        c'.numberVisits < c.numberVisits) ∧
      t.numberVisits = 2 - 1 ∧
      childVisitSum t ≤ 2 - 1) :=
  ⟨⟨by decide, fun _ => List.cons_ne_nil 1 [1]⟩,
    C2_uct_search stubEvalC2 stubPlayC2 stubSqrtC2 () 2 (by decide)
      (fun _ => List.cons_ne_nil 1 [1])⟩

theorem initSeg_antisymm {a b : List ℕ} (h1 : initSeg a b) (h2 : initSeg b a) :
    a = b := by
  have l1 := initSeg_length_le h1
  have l2 := initSeg_length_le h2
  rw [initSeg] at h1
  rw [← h1]
  rw [List.take_of_length_le (by omega)]

theorem initSeg_append {path q : List ℕ} (h : initSeg path q) :
    ∃ r, q = path ++ r := by
  rw [initSeg] at h
  refine ⟨q.drop path.length, ?_⟩
  conv_lhs => rw [← List.take_append_drop path.length q]
  rw [h]

theorem nodeAt_childless {α : Type} (st : UCTTree α) (hcs : st.childList = [])
    (a : ℕ) (r : List ℕ) : nodeAt st (a :: r) = none := by
  obtain ⟨g, b, p, tv, nv, cs⟩ := st
  have : cs = [] := hcs
  subst this
  rw [nodeAt_cons]
  rfl

theorem UXb_nodeAt {α : Type} :
    ∀ (q : List ℕ) (t : UCTTree α), UXb t = true → ∀ st, nodeAt t q = some st →
      UXb st = true := by
  intro q
  induction q with
  | nil =>
      intro t hux st hst
      have : t = st := Option.some.inj hst
      rw [← this]
      exact hux
  | cons a q' ih =>
      intro t hux st hst
      obtain ⟨g, b, p, tv, nv, cs⟩ := t
      rw [nodeAt_cons] at hst
      cases hc : cs.get? a with
      | none => rw [hc] at hst; exact Option.noConfusion hst
      | some c =>
          rw [hc] at hst
          exact ih c ((UXb_parts hux).2 c (List.get?_mem hc)) st hst

theorem UXb_childless {α : Type} (t : UCTTree α) (hux : UXb t = true)
    (hflag : t.expandedFlag = false) : t.childList = [] := by
  obtain ⟨g, b, p, tv, nv, cs⟩ := t
  exact (UXb_parts hux).1 hflag

theorem expandNode_gameState {α : Type} (play : α → ℕ → α) (priors : List ℚ)
    (st : UCTTree α) : (expandNode play priors st).gameState = st.gameState := by
  obtain ⟨g, b, p, tv, nv, cs⟩ := st
  rfl

theorem expandNode_priorOf {α : Type} (play : α → ℕ → α) (priors : List ℚ)
    (st : UCTTree α) : (expandNode play priors st).priorOf = st.priorOf := by
  obtain ⟨g, b, p, tv, nv, cs⟩ := st
  rfl

theorem expandNode_expandedFlag {α : Type} (play : α → ℕ → α) (priors : List ℚ)
    (st : UCTTree α) : (expandNode play priors st).expandedFlag = true := by
  obtain ⟨g, b, p, tv, nv, cs⟩ := st
  rfl

theorem infoOf_gameState {α : Type} (t : UCTTree α) :
    (infoOf t).game_state = t.gameState := by
  obtain ⟨g, b, p, tv, nv, cs⟩ := t
  rfl

theorem infoOf_prior {α : Type} (t : UCTTree α) :
    (infoOf t).prior = t.priorOf := by
  obtain ⟨g, b, p, tv, nv, cs⟩ := t
  rfl

theorem searchStep_inv {α : Type} (evaluate : α → List ℚ × ℚ) (play : α → ℕ → α)
    (sqrtQ : ℕ → ℚ) (t t' : UCTTree α)
    (h : searchStep evaluate play sqrtQ t = some t') :
    ∃ path leaf,
      selectLeaf sqrtQ t = some (path, vLossAlong path t) ∧
      nodeAt t path = some leaf ∧ leaf.expandedFlag = false ∧
      t' = backupAlong (evaluate leaf.gameState).2 path
        (expandAt play (evaluate leaf.gameState).1 path (vLossAlong path t)) := by
  rw [searchStep] at h
  split at h
  · exact Option.noConfusion h
  · rename_i pt hsl
    obtain ⟨path, t2⟩ := pt
    split at h
    · exact Option.noConfusion h
    · rename_i leaf hleaf
      obtain ⟨hvl, ⟨leaf0, hleaf0, hflag0⟩, _⟩ :=
        selectLeaf_spec_aux sqrtQ (sizeOf t) t (le_refl _) path t2 hsl
      subst hvl
      have hoff : nodeAt (vLossAlong path t) path = nodeAt t path :=
        vLossAlong_nodeAt_off path t path (fun hand => hand.2 rfl)
      rw [hoff, hleaf0] at hleaf
      have hleaf' : leaf0 = leaf := Option.some.inj hleaf
      subst hleaf'
      exact ⟨path, leaf0, hsl, hleaf0, hflag0, (Option.some.inj h).symm⟩

/-- Identity preservation through one read: every node present in the tree
before the read is still present afterwards, with its game state and prior
intact; if it was expanded it stays expanded with the same number of
children. -/
theorem searchStep_preserves_identity {α : Type} (evaluate : α → List ℚ × ℚ)
    (play : α → ℕ → α) (sqrtQ : ℕ → ℚ) (t t' : UCTTree α) (hux : UXb t = true)
    (h : searchStep evaluate play sqrtQ t = some t') :
    ∀ q inf, infoAt t q = some inf →
      ∃ inf', infoAt t' q = some inf' ∧
        inf'.game_state = inf.game_state ∧ inf'.prior = inf.prior ∧
        (inf.is_expanded = true → inf'.is_expanded = true ∧
          inf'.numChildren = inf.numChildren) := by
  obtain ⟨path, leaf, hsl, hleafT, hflagleaf, ht'⟩ :=
    searchStep_inv evaluate play sqrtQ t t' h
  subst ht'
  intro q inf hinf
  by_cases hqe : q = path
  · subst hqe
    have hinfleaf : inf = infoOf leaf := by
      have hh : infoAt t q = some (infoOf leaf) := by
        rw [infoAt, hleafT]
        rfl
      rw [hinf] at hh
      exact Option.some.inj hh
    have hleaf1 : nodeAt (vLossAlong q t) q = some leaf := by
      rw [vLossAlong_nodeAt_off q t q (fun hand => hand.2 rfl)]
      exact hleafT
    have h2 : nodeAt (expandAt play (evaluate leaf.gameState).1 q
        (vLossAlong q t)) q =
        some (expandNode play (evaluate leaf.gameState).1 leaf) :=
      expandAt_nodeAt_at play _ q _ leaf hleaf1
    have hgs : (infoOf (expandNode play (evaluate leaf.gameState).1
        leaf)).game_state = inf.game_state := by
      rw [infoOf_gameState, expandNode_gameState, hinfleaf, infoOf_gameState]
    have hpr : (infoOf (expandNode play (evaluate leaf.gameState).1
        leaf)).prior = inf.prior := by
      rw [infoOf_prior, expandNode_priorOf, hinfleaf, infoOf_prior]
    have hflaginf : inf.is_expanded = false := by
      rw [hinfleaf, infoOf_expandedFlag]
      exact hflagleaf
    cases q with
    | nil =>
        refine ⟨infoOf (expandNode play (evaluate leaf.gameState).1 leaf),
          ?_, hgs, hpr, ?_⟩
        · show infoAt (expandAt play (evaluate leaf.gameState).1 []
            (vLossAlong [] t)) [] = _
          rw [infoAt, h2]
          rfl
        · intro hcontra
          rw [hflaginf] at hcontra
          exact Bool.noConfusion hcontra
    | cons a q' =>
        refine ⟨bumpBackup (evaluate leaf.gameState).2
          (infoOf (expandNode play (evaluate leaf.gameState).1 leaf)),
          ?_, ?_, ?_, ?_⟩
        · rw [backupAlong_infoAt_on _ (a :: q') _ (a :: q')
            (initSeg_refl _) (by simp), infoAt, h2]
          rfl
        · exact hgs
        · exact hpr
        · intro hcontra
          rw [hflaginf] at hcontra
          exact Bool.noConfusion hcontra
  · by_cases hqp : initSeg q path
    · -- q is a strict ancestor of the leaf
      have h1 : infoAt (vLossAlong path t) q = some (bumpVL inf) := by
        rw [vLossAlong_infoAt_on path t q hqp hqe, hinf]
        rfl
      have hnpq : ¬ initSeg path q := by
        intro hpq
        exact hqe (initSeg_antisymm hqp hpq)
      have h2 : infoAt (expandAt play (evaluate leaf.gameState).1 path
          (vLossAlong path t)) q = some (bumpVL inf) := by
        rw [expandAt_infoAt_off play _ path _ q hnpq, h1]
      cases hq : decide (q = []) with
      | true =>
          have hq' : q = [] := of_decide_eq_true hq
          subst hq'
          refine ⟨bumpVL inf, ?_, rfl, rfl, ?_⟩
          · rw [backupAlong_infoAt_root]
            exact h2
          · intro hflag
            exact ⟨hflag, rfl⟩
      | false =>
          have hq' : q ≠ [] := of_decide_eq_false hq
          refine ⟨bumpBackup (evaluate leaf.gameState).2 (bumpVL inf),
            ?_, rfl, rfl, ?_⟩
          · rw [backupAlong_infoAt_on _ path _ q hqp hq', h2]
            rfl
          · intro hflag
            exact ⟨hflag, rfl⟩
    · -- q is neither an ancestor of the leaf nor at/below it
      have hnpq : ¬ initSeg path q := by
        intro hpq
        obtain ⟨r, hr⟩ := initSeg_append hpq
        have hrne : r ≠ [] := by
          intro hnil
          rw [hnil, List.append_nil] at hr
          exact hqe hr
        obtain ⟨a, r', hr'⟩ := List.exists_cons_of_ne_nil hrne
        have huxleaf := UXb_nodeAt path t hux leaf hleafT
        have hchildless := UXb_childless leaf huxleaf hflagleaf
        have hnone : nodeAt t q = none := by
          rw [hr, nodeAt_append, hleafT]
          show nodeAt leaf r = none
          rw [hr']
          exact nodeAt_childless leaf hchildless a r'
        rw [infoAt, hnone] at hinf
        exact Option.noConfusion hinf
      have h1 : nodeAt (vLossAlong path t) q = nodeAt t q :=
        vLossAlong_nodeAt_off path t q (fun hand => hqp hand.1)
      have h2 : infoAt (expandAt play (evaluate leaf.gameState).1 path
          (vLossAlong path t)) q = infoAt (vLossAlong path t) q :=
        expandAt_infoAt_off play _ path _ q hnpq
      have h3 : nodeAt (backupAlong (evaluate leaf.gameState).2 path
          (expandAt play (evaluate leaf.gameState).1 path (vLossAlong path t))) q =
          nodeAt (expandAt play (evaluate leaf.gameState).1 path
            (vLossAlong path t)) q :=
        backupAlong_nodeAt_off _ path _ q hqp
      refine ⟨inf, ?_, rfl, rfl, fun hf => ⟨hf, rfl⟩⟩
      simp only [infoAt] at h2 ⊢
      rw [h3, h2, h1]
      rw [infoAt] at hinf
      exact hinf

/-- Claim C8: every MCTS node is in exactly one of two states — unexpanded
(no children) or expanded; one read of the search loop (the only operations
ever applied to the tree) keeps the unexpanded-means-childless invariant,
and once a node is expanded it stays expanded, its children mapping keeps
exactly the same entries (same count, and each child keeps its game state
and prior — the entries are never replaced or removed, only their statistics
and subtrees evolve), and no node ever returns to the unexpanded state. -/
theorem C8_node_state_machine {α : Type} (evaluate : α → List ℚ × ℚ)
    (play : α → ℕ → α) (sqrtQ : ℕ → ℚ) (t t' : UCTTree α)
    (hux : UXb t = true) (h : searchStep evaluate play sqrtQ t = some t') :
    (∀ q inf, infoAt t q = some inf → inf.is_expanded = false →
      inf.numChildren = 0) ∧
    UXb t' = true ∧
    (∀ q inf, infoAt t q = some inf → inf.is_expanded = true →
      ∃ inf', infoAt t' q = some inf' ∧ inf'.is_expanded = true ∧
        inf'.numChildren = inf.numChildren ∧
        inf'.game_state = inf.game_state ∧ inf'.prior = inf.prior ∧
        (∀ m, m < inf.numChildren → ∃ cinf cinf',
          infoAt t (q ++ [m]) = some cinf ∧ infoAt t' (q ++ [m]) = some cinf' ∧
          cinf'.game_state = cinf.game_state ∧ cinf'.prior = cinf.prior)) := by
  refine ⟨?_, ?_, ?_⟩
  · intro q inf hinf hflag
    rw [infoAt] at hinf
    cases hst : nodeAt t q with
    | none => rw [hst] at hinf; exact Option.noConfusion hinf
    | some st =>
        rw [hst] at hinf
        have hinf' : infoOf st = inf := Option.some.inj hinf
        have huxst := UXb_nodeAt q t hux st hst
        have hstflag : st.expandedFlag = false := by
          rw [← infoOf_expandedFlag, hinf']
          exact hflag
        have hnil := UXb_childless st huxst hstflag
        rw [← hinf', infoOf_numChildren, hnil]
        rfl
  · obtain ⟨path, leaf, _, _, _, ht'⟩ := searchStep_inv evaluate play sqrtQ t t' h
    rw [ht']
    exact UXb_backupAlong _ _ _ (UXb_expandAt _ _ _ _ (UXb_vLossAlong _ _ hux))
  · intro q inf hinf hflag
    obtain ⟨inf', hinf', hgs, hpr, hexp⟩ :=
      searchStep_preserves_identity evaluate play sqrtQ t t' hux h q inf hinf
    obtain ⟨hflag', hnum⟩ := hexp hflag
    refine ⟨inf', hinf', hflag', hnum, hgs, hpr, ?_⟩
    intro m hm
    have hstq : ∃ st, nodeAt t q = some st ∧ infoOf st = inf := by
      rw [infoAt] at hinf
      cases hst : nodeAt t q with
      | none => rw [hst] at hinf; exact Option.noConfusion hinf
      | some st => rw [hst] at hinf; exact ⟨st, rfl, Option.some.inj hinf⟩
    obtain ⟨st, hst, hstinf⟩ := hstq
    have hmlen : m < st.childList.length := by
      rw [← infoOf_numChildren, hstinf]
      exact hm
    have hchild : nodeAt t (q ++ [m]) = some (st.childList.get ⟨m, hmlen⟩) := by
      rw [nodeAt_append, hst]
      show nodeAt st [m] = _
      rw [nodeAt_singleton]
      exact List.get?_eq_get hmlen
    have hcinf : infoAt t (q ++ [m]) = some (infoOf (st.childList.get ⟨m, hmlen⟩)) := by
      rw [infoAt, hchild]
      rfl
    obtain ⟨cinf', hcinf', hcgs, hcpr, _⟩ :=
      searchStep_preserves_identity evaluate play sqrtQ t t' hux h (q ++ [m]) _ hcinf
    exact ⟨infoOf (st.childList.get ⟨m, hmlen⟩), cinf', hcinf, hcinf', hcgs, hcpr⟩

/-- Deterministic stub evaluator for the C8 witness. -/
def c8Eval : Unit → List ℚ × ℚ := fun _ => ([1, 1], 0)

/-- Stub `play` for the C8 witness. -/
def c8Play : Unit → ℕ → Unit := fun _ _ => ()

/-- Stub square root for the C8 witness. -/
def c8Sqrt : ℕ → ℚ := fun _ => 0

/-- A fresh (unexpanded) root for the C8 witness. -/
def c8Tree : UCTTree Unit := UCTTree.mk () false 0 0 0 []

/-- The tree after one read of `c8Tree` under the stubs. -/
def c8After : UCTTree Unit :=
  UCTTree.mk () true 0 0 0
    [UCTTree.mk () false 1 0 0 [], UCTTree.mk () false 1 0 0 []]

/-- Witness for C8 on a concrete fresh root and one concrete read. -/
theorem C8_node_state_machine_witness :
    UXb c8Tree = true ∧
    searchStep c8Eval c8Play c8Sqrt c8Tree = some c8After ∧
    ((∀ q inf, infoAt c8Tree q = some inf → inf.is_expanded = false →
        inf.numChildren = 0) ∧
      UXb c8After = true ∧
      (∀ q inf, infoAt c8Tree q = some inf → inf.is_expanded = true →
        ∃ inf', infoAt c8After q = some inf' ∧ inf'.is_expanded = true ∧
          inf'.numChildren = inf.numChildren ∧
          inf'.game_state = inf.game_state ∧ inf'.prior = inf.prior ∧
          (∀ m, m < inf.numChildren → ∃ cinf cinf',
            infoAt c8Tree (q ++ [m]) = some cinf ∧
            infoAt c8After (q ++ [m]) = some cinf' ∧
            cinf'.game_state = cinf.game_state ∧ cinf'.prior = cinf.prior))) := by
  have hstep : searchStep c8Eval c8Play c8Sqrt c8Tree = some c8After := by
    simp [searchStep, selectLeaf, nodeAt, expandAt, expandNode, expandChildren,
      backupAlong, c8Eval, c8Play, c8Tree, c8After, UCTTree.gameState,
      UCTTree.childList, List.enum]
  exact ⟨by decide, hstep,
    C8_node_state_machine c8Eval c8Play c8Sqrt c8Tree c8After (by decide) hstep⟩
